import Mathlib

/-!
# GlobalVariable.cc: a shallow embedding

The clang plugin of `GlobalVariable.cc` walks the AST of one translation unit.
Three visitor callbacks (`VisitFunctionDecl`, `VisitVarDecl`,
`VisitDeclRefExpr`) fill two ordered containers, and `showGlobalVariables`
turns the second one into warnings.

Modelling conventions.

* `std::string` is a list of characters compared lexicographically
  (`std::string::operator<` compares bytes; on UTF-8 this is code point order).
  The names that reach the containers pass through `c_str()`, so they are the
  NUL-free identifiers clang prints.
* `std::set<T>` and `std::map<K, V>` are lists kept in ascending key order by
  the insertion functions below; iteration is list order, as `begin()`..`end()`
  is key order in the source.
* A `VarDecl*` (and any `Decl*`) is the natural number of its address.
* Source line numbers are natural numbers: clang's are below `2^31`, so the
  `unsigned`/`int` conversions of the source never wrap.
* The plugin is modelled as built without assertions, where `cast<VarDecl>`
  is a plain pointer conversion.
* A local declared without an initialiser holds an indeterminate value, which
  is an input of the call that reads it.
-/

namespace GlobalVariable

/-- A `std::string`. -/
abbrev CxxString := List Char

/-! ## Ordered containers -/

/-- `std::set<T>::insert(x)` on the ascending list of the set's elements. -/
def setInsert {α : Type} [LinearOrder α] (x : α) : List α → List α
  | [] => [x]
  | y :: ys =>
    if x < y then x :: y :: ys
    else if y < x then y :: setInsert x ys
    else y :: ys

/-- `std::map<K, V>::find(k)`, as the mapped value when the key is present. -/
def mapFind {κ β : Type} [LinearOrder κ] (k : κ) : List (κ × β) → Option β
  | [] => none
  | (k', v) :: t => if k = k' then some v else mapFind k t

/-- `std::map<K, V>::count(k) > 0`. -/
def mapContains {κ β : Type} [LinearOrder κ] (k : κ) (m : List (κ × β)) : Bool :=
  (mapFind k m).isSome

/-- The access `m[k]` followed by a change of the mapped value: `g none` is what
the change makes of the default-constructed value `operator[]` inserts for an
absent key, `g (some v)` what it makes of the value `v` already mapped. -/
def mapUpdate {κ β : Type} [LinearOrder κ] (k : κ) (g : Option β → β) :
    List (κ × β) → List (κ × β)
  | [] => [(k, g none)]
  | (k', v) :: t =>
    if k < k' then (k, g none) :: (k', v) :: t
    else if k' < k then (k', v) :: mapUpdate k g t
    else (k', g (some v)) :: t

/-- `std::map<K, V>::insert({k, v})`: a key already present keeps its value. -/
def mapInsert {κ β : Type} [LinearOrder κ] (k : κ) (v : β) (m : List (κ × β)) :
    List (κ × β) :=
  mapUpdate k (fun o => o.getD v) m

/-- The keys of a map, in iteration order. -/
def mapKeys {κ β : Type} (m : List (κ × β)) : List κ := m.map Prod.fst

/-- The representation invariant of `std::map`: keys strictly ascending. -/
def MapWF {κ β : Type} [LinearOrder κ] (m : List (κ × β)) : Prop :=
  (mapKeys m).Pairwise (fun a b => a < b)

/-- The representation invariant of `std::set`: elements strictly ascending. -/
def SetWF {α : Type} [LinearOrder α] (s : List α) : Prop :=
  s.Pairwise (fun a b => a < b)

/-! ## The front end's data -/

/-- What `context->getFullLoc(loc)` exposes of a source location. -/
structure FullSourceLoc where
  isValid : Bool
  isInSystemHeader : Bool
  /-- The result of `getFileEntry()->getName()`. -/
  fileName : CxxString
  spellingLineNumber : Nat
  deriving DecidableEq, Repr

/-- A `FunctionDecl` node as the visitor reads it. -/
structure FunctionDecl where
  /-- The result of `getLocation()`. -/
  loc : FullSourceLoc
  beginLoc : FullSourceLoc
  endLoc : FullSourceLoc
  /-- The result of `getNameAsString().c_str()`. -/
  nameAsString : CxxString
  deriving DecidableEq, Repr

/-- A `VarDecl` node as the visitor reads it, with its address. -/
structure VarDecl where
  /-- The address of the node, the key of `globalVarReferences`. -/
  ptr : Nat
  /-- The result of `getLocation()`. -/
  loc : FullSourceLoc
  hasGlobalStorage : Bool
  nameAsString : CxxString
  deriving DecidableEq, Repr

/-- What a call of `VisitDeclRefExpr` reads: two values from the `DeclRefExpr` node
and, from its own frame, the content of the local `var`, which the source declares
without an initialiser. -/
structure DeclRefExpr where
  /-- The result of `getReferencedDeclOfCallee()`: the address of the declaration
  referred to, `none` for a null pointer. -/
  referencedDecl : Option Nat
  /-- The spelling line number of `getLocation()`. -/
  spellingLineNumber : Nat
  /-- The indeterminate value the local `VarDecl* var` holds right after its
  declaration (`none` when it happens to be null). The source reads it only when
  `referencedDecl` is null. -/
  indeterminateVar : Option Nat
  deriving DecidableEq, Repr

/-- The value of the local `var` at the test `var && globalVarReferences.count(var)`:
the referenced declaration when that is not null (`cast<VarDecl>` being a plain
conversion), and otherwise whatever `var` held, since it was never assigned. -/
def DeclRefExpr.var (d : DeclRefExpr) : Option Nat :=
  match d.referencedDecl with
  | some referencedDecl => some referencedDecl
  | none => d.indeterminateVar

/-- The span index `functionSpan`: name ↦ (start line ↦ end line). -/
abbrev FunctionSpan := List (CxxString × List (Nat × Nat))

/-- The registry `globalVarReferences`: variable address ↦ set of function names. -/
abbrev GlobalVarReferences := List (Nat × List CxxString)

/-- The mutable state the visitor callbacks work on: the visitor's member
`functionSpan` and the file-scope map `globalVarReferences`. -/
structure State where
  functionSpan : FunctionSpan
  globalVarReferences : GlobalVarReferences
  deriving DecidableEq, Repr

/-- The state before anything is visited. -/
def State.empty : State := ⟨[], []⟩

/-! ## The visitor -/

/-- The method `isInHeader`, on the full location of the declaration. -/
def isInHeader (floc : FullSourceLoc) : Bool :=
  if floc.isInSystemHeader then true
  else if [ '.', 'h' ].isSuffixOf floc.fileName || [ '.', 'h', 'p', 'p' ].isSuffixOf floc.fileName then
    true
  else false

/-- The method `VisitFunctionDecl`. -/
def VisitFunctionDecl (st : State) (d : FunctionDecl) : State :=
  if isInHeader d.loc then st
  else if d.beginLoc.isValid && d.endLoc.isValid then
    { st with
      functionSpan :=
        mapUpdate d.nameAsString
          (fun o => mapInsert d.beginLoc.spellingLineNumber d.endLoc.spellingLineNumber (o.getD []))
          st.functionSpan }
  else st

/-- The method `VisitVarDecl`. -/
def VisitVarDecl (st : State) (var : VarDecl) : State :=
  if isInHeader var.loc then st
  else if var.hasGlobalStorage then
    { st with globalVarReferences := mapUpdate var.ptr (fun _ => []) st.globalVarReferences }
  else st

/-- The loop of `VisitDeclRefExpr` over `functionSpan`: the name of the first
entry, in key order, whose first interval `*function.second.begin()` contains
`varLoc`. An entry with no interval (which `VisitFunctionDecl` never creates) is
passed over. -/
def findOwner (varLoc : Nat) : FunctionSpan → Option CxxString
  | [] => none
  | (funcName, spans) :: rest =>
    match spans with
    | [] => findOwner varLoc rest
    | lines :: _ =>
      if varLoc ≥ lines.1 ∧ varLoc ≤ lines.2 then some funcName
      else findOwner varLoc rest

/-- The method `VisitDeclRefExpr`. The test `var && ...` fails for a null `var`;
for a null referenced declaration `var` is the indeterminate value of `d`. -/
def VisitDeclRefExpr (st : State) (d : DeclRefExpr) : State :=
  match d.var with
  | none => st
  | some var =>
    if mapContains var st.globalVarReferences then
      match findOwner d.spellingLineNumber st.functionSpan with
      | some funcName =>
        { st with
          globalVarReferences :=
            mapUpdate var (fun o => setInsert funcName (o.getD [])) st.globalVarReferences }
      | none => st
    else st

/-- One callback of the traversal. -/
inductive Event where
  | functionDecl (d : FunctionDecl)
  | varDecl (var : VarDecl)
  | declRefExpr (d : DeclRefExpr)
  deriving DecidableEq, Repr

/-- Dispatch of one node to its callback. -/
def visit (st : State) : Event → State
  | .functionDecl d => VisitFunctionDecl st d
  | .varDecl var => VisitVarDecl st var
  | .declRefExpr d => VisitDeclRefExpr st d

/-- The call `visitor.TraverseDecl(...)`: the callbacks in the order the
traversal delivers the nodes. -/
def TraverseDecl (st : State) (events : List Event) : State :=
  events.foldl visit st

/-! ## The report -/

/-- A call of the diagnostic sink. -/
structure Diagnostic where
  loc : FullSourceLoc
  format : String
  args : List CxxString
  deriving DecidableEq, Repr

/-- The method `displayDiag`. -/
def displayDiag (loc : FullSourceLoc) (varName funcName : CxxString) : Diagnostic :=
  ⟨loc, "Bad Implementation of Global Variable '%0' Found in '%1'", [varName, funcName]⟩

/-- The iterations of `showGlobalVariables` that reach `displayDiag`, as pairs of
the registry key `itr->first` and the function name `*temp_itr`. -/
def diagCalls : GlobalVarReferences → List (Nat × CxxString)
  | [] => []
  | (var, temp) :: rest =>
    if temp.length > 1 then diagCalls rest
    else temp.map (fun funcName => (var, funcName)) ++ diagCalls rest

/-- The method `showGlobalVariables`; `deref` reads the node behind a key. -/
def showGlobalVariables (deref : Nat → VarDecl) (reg : GlobalVarReferences) :
    List Diagnostic :=
  (diagCalls reg).map
    (fun c => displayDiag (deref c.1).loc (deref c.1).nameAsString c.2)

/-- The method `HandleTranslationUnit` of a consumer whose visitor starts with an
empty `functionSpan`; `reg` is the file-scope registry as the call finds it. The
result is the registry the call leaves and the warnings it emits. -/
def HandleTranslationUnit (deref : Nat → VarDecl) (reg : GlobalVarReferences)
    (events : List Event) : GlobalVarReferences × List Diagnostic :=
  let st := TraverseDecl ⟨[], reg⟩ events
  (st.globalVarReferences, showGlobalVariables deref st.globalVarReferences)


/-! ## Notions used to state the properties -/

/-- The span index holds the interval `(s, e)` under the name `n`. -/
def Stored (idx : FunctionSpan) (n : CxxString) (s e : Nat) : Prop :=
  ∃ p ∈ idx, p.1 = n ∧ (s, e) ∈ p.2

instance (idx : FunctionSpan) (n : CxxString) (s e : Nat) : Decidable (Stored idx n s e) := by
  unfold Stored
  infer_instance

instance {κ β : Type} [LinearOrder κ] (m : List (κ × β)) : Decidable (MapWF m) := by
  unfold MapWF
  infer_instance

instance {α : Type} [LinearOrder α] (s : List α) : Decidable (SetWF s) := by
  unfold SetWF
  infer_instance

/-- The change `VisitFunctionDecl` makes to the span index for a declaration it
records, given as (name, start line, end line). -/
def recordSpan (idx : FunctionSpan) (r : CxxString × Nat × Nat) : FunctionSpan :=
  mapUpdate r.1 (fun o => mapInsert r.2.1 r.2.2 (o.getD [])) idx

/-- The function declarations of a stream that `VisitFunctionDecl` records (not
in a header, both ends valid), as (name, start line, end line), in stream order. -/
def recordedSpans (events : List Event) : List (CxxString × Nat × Nat) :=
  events.filterMap fun ev =>
    match ev with
    | .functionDecl d =>
      if !isInHeader d.loc && (d.beginLoc.isValid && d.endLoc.isValid) then
        some (d.nameAsString, d.beginLoc.spellingLineNumber, d.endLoc.spellingLineNumber)
      else none
    | _ => none

/-- The lines of the reference events of a stream that `VisitDeclRefExpr` handles
with `var` equal to `V`. -/
def refLines (V : Nat) (events : List Event) : List Nat :=
  events.filterMap fun ev =>
    match ev with
    | .declRefExpr d => if d.var = some V then some d.spellingLineNumber else none
    | _ => none

/-- The event is a declaration visit that puts `V` in the registry. -/
def Event.tracks (V : Nat) : Event → Bool
  | .varDecl var => decide (var.ptr = V) && !isInHeader var.loc && var.hasGlobalStorage
  | _ => false

/-- The event is a reference that `VisitDeclRefExpr` handles with `var` equal to
`V`: its referenced declaration is `V`, or it is null and `var` happens to hold
`V`. -/
def Event.refersTo (V : Nat) : Event → Bool
  | .declRefExpr d => decide (d.var = some V)
  | _ => false

/-- The event is a function declaration visit. -/
def Event.isFunctionDecl : Event → Bool
  | .functionDecl _ => true
  | _ => false

/-- The event is a reference visit. -/
def Event.isDeclRefExpr : Event → Bool
  | .declRefExpr _ => true
  | _ => false

/-- Two recorded declarations have different names and no line in common. -/
def SpansApart (a b : CxxString × Nat × Nat) : Prop :=
  a.1 ≠ b.1 ∧ ∀ L, ¬ ((a.2.1 ≤ L ∧ L ≤ a.2.2) ∧ (b.2.1 ≤ L ∧ L ≤ b.2.2))

instance (a b : CxxString × Nat × Nat) : Decidable (SpansApart a b) :=
  decidable_of_iff (a.1 ≠ b.1 ∧ ¬ (max a.2.1 b.2.1 ≤ min a.2.2 b.2.2))
    ⟨fun h => ⟨h.1, fun L hL => h.2 (by omega)⟩,
      fun h => ⟨h.1, fun hle => h.2 (max a.2.1 b.2.1) (by omega)⟩⟩

/-- The function named `g` is recorded with a span that contains a line at which
the stream refers to `V`. -/
def Owns (events : List Event) (V : Nat) (g : CxxString) : Prop :=
  ∃ r ∈ recordedSpans events, r.1 = g ∧ ∃ L ∈ refLines V events, r.2.1 ≤ L ∧ L ≤ r.2.2

instance (events : List Event) (V : Nat) (g : CxxString) : Decidable (Owns events V g) := by
  unfold Owns
  infer_instance

/-- The set a variable ends with when references at `lines` are resolved against
the fixed span index `idx`, starting from the set `S`. -/
def addOwners (idx : FunctionSpan) (S : List CxxString) (lines : List Nat) : List CxxString :=
  lines.foldl
    (fun acc L =>
      match findOwner L idx with
      | some funcName => setInsert funcName acc
      | none => acc)
    S

/-! ## Notions for the order and tie-break properties -/

/-- In the stream every declaration visit comes before every reference visit. -/
def DeclsFirst (events : List Event) : Prop :=
  events.Pairwise (fun a b => ¬ (a.isDeclRefExpr = true ∧ b.isDeclRefExpr = false))

instance (events : List Event) : Decidable (DeclsFirst events) := by
  unfold DeclsFirst
  infer_instance

/-- Two recorded declarations with the same name and start line have the same end
line. -/
def SpansAgree (a b : CxxString × Nat × Nat) : Prop :=
  a.1 = b.1 → a.2.1 = b.2.1 → a.2.2 = b.2.2

instance (a b : CxxString × Nat × Nat) : Decidable (SpansAgree a b) := by
  unfold SpansAgree
  infer_instance

/-- The addresses that the declaration visits of a stream put in the registry, in
stream order. -/
def trackedPtrs (events : List Event) : List Nat :=
  events.filterMap fun ev =>
    match ev with
    | .varDecl var =>
      if !isInHeader var.loc && var.hasGlobalStorage then some var.ptr else none
    | _ => none

/-- The name `n` is a key of the span index and, of the intervals stored under it,
the one with the smallest start line contains the line `L`. -/
def FirstContains (idx : FunctionSpan) (n : CxxString) (L : Nat) : Prop :=
  ∃ p ∈ idx, p.1 = n ∧ ∃ q ∈ p.2, (∀ r ∈ p.2, q.1 ≤ r.1) ∧ q.1 ≤ L ∧ L ≤ q.2

instance (idx : FunctionSpan) (n : CxxString) (L : Nat) : Decidable (FirstContains idx n L) := by
  unfold FirstContains
  infer_instance

/-- The registry `VisitDeclRefExpr` leaves when it handles `d` against the span
index `idx` and the registry `reg`. -/
def refStep (idx : FunctionSpan) (d : DeclRefExpr) (reg : GlobalVarReferences) :
    GlobalVarReferences :=
  match d.var, findOwner d.spellingLineNumber idx with
  | some var, some funcName =>
    if mapContains var reg then mapUpdate var (fun o => setInsert funcName (o.getD [])) reg
    else reg
  | _, _ => reg

/-! ## Sample data -/

/-- A valid location at the given line of the main source file `main.cc`. -/
def mainFileLoc (line : Nat) : FullSourceLoc :=
  ⟨true, false, "main.cc".toList, line⟩

/-- A function of `main.cc` spanning the lines `s` to `e`. -/
def sampleFunction (name : String) (s e : Nat) : FunctionDecl :=
  ⟨mainFileLoc s, mainFileLoc s, mainFileLoc e, name.toList⟩

/-- A file-scope variable of `main.cc` declared on line 1, at address `ptr`. -/
def sampleGlobal (ptr : Nat) (name : String) : VarDecl :=
  ⟨ptr, mainFileLoc 1, true, name.toList⟩

/-- A reference to the declaration at address `ptr` from line `line`. -/
def sampleRef (ptr line : Nat) : DeclRefExpr :=
  ⟨some ptr, line, none⟩

/-- The stream of scenario 1: `counter` referenced at line 4 inside `increment`
(lines 3 to 5), with `reset` (lines 7 to 9) declared as well. -/
def counterEvents : List Event :=
  [.varDecl (sampleGlobal 7 "counter"),
   .functionDecl (sampleFunction "increment" 3 5),
   .functionDecl (sampleFunction "reset" 7 9),
   .declRefExpr (sampleRef 7 4)]

/-- The stream of scenario 5: two functions named `helper`, at lines 1 to 3 and
10 to 13, and the global `g` referenced once inside each. -/
def helperEvents : List Event :=
  [.varDecl (sampleGlobal 7 "g"),
   .functionDecl (sampleFunction "helper" 1 3),
   .functionDecl (sampleFunction "helper" 10 13),
   .declRefExpr (sampleRef 7 2),
   .declRefExpr (sampleRef 7 11)]

/-- A second translation unit: `x` (address 8) is declared and `reset` (lines 7 to
9) is defined; nothing is referenced. -/
def secondUnitEvents : List Event :=
  [.varDecl (sampleGlobal 8 "x"), .functionDecl (sampleFunction "reset" 7 9)]

/-- The nodes behind the sample addresses: `counter` at address 7, `x` elsewhere. -/
def sampleDeref (ptr : Nat) : VarDecl :=
  if ptr = 7 then sampleGlobal 7 "counter" else sampleGlobal ptr "x"

/-! ## Container lemmas -/

section Containers

variable {α κ β : Type} [LinearOrder α] [LinearOrder κ]

theorem mem_setInsert (x a : α) (s : List α) :
    a ∈ setInsert x s ↔ a = x ∨ a ∈ s := by
  induction s with
  | nil => simp [setInsert]
  | cons y ys ih =>
    unfold setInsert
    split_ifs with h1 h2
    · simp
    · simp only [List.mem_cons, ih]; tauto
    · have hxy : x = y := le_antisymm (not_lt.mp h2) (not_lt.mp h1)
      subst hxy
      simp

theorem setInsert_idem (x : α) (s : List α) :
    setInsert x (setInsert x s) = setInsert x s := by
  induction s with
  | nil => simp [setInsert]
  | cons y ys ih =>
    by_cases h1 : x < y
    · simp [setInsert, h1]
    · by_cases h2 : y < x
      · simp [setInsert, h1, h2, ih]
      · simp [setInsert, h1, h2]

theorem setInsert_wf (x : α) (s : List α) (h : SetWF s) : SetWF (setInsert x s) := by
  induction s with
  | nil => simp [setInsert, SetWF]
  | cons y ys ih =>
    unfold SetWF at h ih ⊢
    rw [List.pairwise_cons] at h
    unfold setInsert
    split_ifs with h1 h2
    · refine List.pairwise_cons.mpr ⟨?_, List.pairwise_cons.mpr h⟩
      intro a ha
      rcases List.mem_cons.mp ha with rfl | ha
      · exact h1
      · exact lt_trans h1 (h.1 a ha)
    · refine List.pairwise_cons.mpr ⟨?_, ih h.2⟩
      intro a ha
      rcases (mem_setInsert x a ys).mp ha with rfl | ha
      · exact h2
      · exact h.1 a ha
    · exact List.pairwise_cons.mpr h

theorem SetWF.nodup {s : List α} (h : SetWF s) : s.Nodup :=
  List.Pairwise.imp (fun hab => ne_of_lt hab) h

theorem mapFind_eq_none_iff (k : κ) (m : List (κ × β)) :
    mapFind k m = none ↔ k ∉ mapKeys m := by
  induction m with
  | nil => simp [mapFind, mapKeys]
  | cons p t ih =>
    obtain ⟨k', v⟩ := p
    unfold mapFind
    by_cases h : k = k'
    · simp [h, mapKeys]
    · simp only [h, if_false, ih]
      simp [mapKeys, h]

theorem mapContains_iff (k : κ) (m : List (κ × β)) :
    mapContains k m = true ↔ k ∈ mapKeys m := by
  unfold mapContains
  rw [Option.isSome_iff_ne_none, Ne, mapFind_eq_none_iff, not_not]

theorem mem_of_mapFind {k : κ} {v : β} {m : List (κ × β)} (h : mapFind k m = some v) :
    (k, v) ∈ m := by
  induction m with
  | nil => simp [mapFind] at h
  | cons p t ih =>
    obtain ⟨k', v'⟩ := p
    unfold mapFind at h
    by_cases hk : k = k'
    · simp only [hk, if_true, Option.some.injEq] at h
      simp [hk, h]
    · simp only [hk, if_false] at h
      exact List.mem_cons_of_mem _ (ih h)

theorem mapFind_of_mem {k : κ} {v : β} {m : List (κ × β)} (hwf : MapWF m)
    (h : (k, v) ∈ m) : mapFind k m = some v := by
  induction m with
  | nil => simp at h
  | cons p t ih =>
    obtain ⟨k', v'⟩ := p
    unfold MapWF mapKeys at hwf
    rw [List.map_cons, List.pairwise_cons] at hwf
    unfold mapFind
    rcases List.mem_cons.mp h with heq | hmem
    · simp only [Prod.mk.injEq] at heq
      simp [heq.1, heq.2]
    · have hlt : k' < k := hwf.1 k (List.mem_map.mpr ⟨(k, v), hmem, rfl⟩)
      simp only [ne_of_gt hlt, if_false]
      exact ih hwf.2 hmem

theorem mapFind_mapUpdate_ne {k j : κ} (g : Option β → β) (m : List (κ × β))
    (h : j ≠ k) : mapFind j (mapUpdate k g m) = mapFind j m := by
  induction m with
  | nil => simp [mapUpdate, mapFind, h]
  | cons p t ih =>
    obtain ⟨k', v⟩ := p
    unfold mapUpdate
    split_ifs with h1 h2
    · simp [mapFind, h]
    · simp only [mapFind, ih]
    · have hkk : k = k' := le_antisymm (not_lt.mp h2) (not_lt.mp h1)
      subst hkk
      simp [mapFind, h]

theorem mapFind_mapUpdate_self (k : κ) (g : Option β → β) (m : List (κ × β))
    (hwf : MapWF m) : mapFind k (mapUpdate k g m) = some (g (mapFind k m)) := by
  induction m with
  | nil => simp [mapUpdate, mapFind]
  | cons p t ih =>
    obtain ⟨k', v⟩ := p
    unfold MapWF mapKeys at hwf
    rw [List.map_cons, List.pairwise_cons] at hwf
    unfold mapUpdate
    split_ifs with h1 h2
    · have hnone : mapFind k t = none := by
        rw [mapFind_eq_none_iff]
        intro hmem
        exact lt_asymm h1 (hwf.1 k hmem)
      simp [mapFind, ne_of_lt h1, hnone]
    · simp only [mapFind, ne_of_gt h2, if_false]
      exact ih hwf.2
    · have hkk : k = k' := le_antisymm (not_lt.mp h2) (not_lt.mp h1)
      subst hkk
      simp [mapFind]

theorem mapFind_mapUpdate_const (k : κ) (c : β) (m : List (κ × β)) :
    mapFind k (mapUpdate k (fun _ => c) m) = some c := by
  induction m with
  | nil => simp [mapUpdate, mapFind]
  | cons p t ih =>
    obtain ⟨k', v⟩ := p
    unfold mapUpdate
    split_ifs with h1 h2
    · simp [mapFind]
    · simp only [mapFind, ne_of_gt h2, if_false]
      exact ih
    · have hkk : k = k' := le_antisymm (not_lt.mp h2) (not_lt.mp h1)
      subst hkk
      simp [mapFind]

theorem mem_mapKeys_mapUpdate (k j : κ) (g : Option β → β) (m : List (κ × β)) :
    j ∈ mapKeys (mapUpdate k g m) ↔ j = k ∨ j ∈ mapKeys m := by
  induction m with
  | nil => simp [mapUpdate, mapKeys]
  | cons p t ih =>
    obtain ⟨k', v⟩ := p
    unfold mapUpdate
    split_ifs with h1 h2
    · simp [mapKeys]
    · unfold mapKeys at ih ⊢
      simp only [List.map_cons, List.mem_cons, ih]
      tauto
    · have hkk : k = k' := le_antisymm (not_lt.mp h2) (not_lt.mp h1)
      subst hkk
      simp [mapKeys]

theorem mapUpdate_wf (k : κ) (g : Option β → β) (m : List (κ × β)) (hwf : MapWF m) :
    MapWF (mapUpdate k g m) := by
  induction m with
  | nil => simp [mapUpdate, MapWF, mapKeys]
  | cons p t ih =>
    obtain ⟨k', v⟩ := p
    have hwf' := hwf
    unfold MapWF mapKeys at hwf
    rw [List.map_cons, List.pairwise_cons] at hwf
    unfold mapUpdate
    split_ifs with h1 h2
    · unfold MapWF mapKeys
      rw [List.map_cons, List.pairwise_cons]
      refine ⟨?_, hwf'⟩
      intro a ha
      rw [List.map_cons] at ha
      rcases List.mem_cons.mp ha with rfl | ha
      · exact h1
      · exact lt_trans h1 (hwf.1 a ha)
    · have hrec := ih hwf.2
      unfold MapWF
      unfold mapKeys
      rw [List.map_cons, List.pairwise_cons]
      refine ⟨?_, hrec⟩
      intro a ha
      rcases (mem_mapKeys_mapUpdate k a g t).mp ha with rfl | ha
      · exact h2
      · exact hwf.1 a ha
    · unfold MapWF mapKeys
      rw [List.map_cons, List.pairwise_cons]
      exact hwf

theorem mem_mapUpdate_of_not_mem_keys (k : κ) (g : Option β → β) (m : List (κ × β))
    (hk : k ∉ mapKeys m) (x : κ × β) :
    x ∈ mapUpdate k g m ↔ x = (k, g none) ∨ x ∈ m := by
  induction m with
  | nil => simp [mapUpdate]
  | cons p t ih =>
    obtain ⟨k', v⟩ := p
    have hne : k ≠ k' := by
      intro h
      exact hk (by simp [mapKeys, h])
    have hk' : k ∉ mapKeys t := by
      intro h
      exact hk (by unfold mapKeys at h ⊢; simp [h])
    unfold mapUpdate
    split_ifs with h1 h2
    · simp
    · simp only [List.mem_cons, ih hk']
      tauto
    · exact absurd (le_antisymm (not_lt.mp h2) (not_lt.mp h1)) hne

theorem mapUpdate_idem (k : κ) (g : Option β → β) (m : List (κ × β))
    (hg : ∀ o, g (some (g o)) = g o) :
    mapUpdate k g (mapUpdate k g m) = mapUpdate k g m := by
  induction m with
  | nil => simp [mapUpdate, hg]
  | cons p t ih =>
    obtain ⟨k', v⟩ := p
    by_cases h1 : k < k'
    · simp [mapUpdate, h1, hg]
    · by_cases h2 : k' < k
      · simp [mapUpdate, h1, h2, ih]
      · simp [mapUpdate, h1, h2, hg]

end Containers


/-! ## Lemmas on the report and on the owner loop -/

theorem mem_diagCalls (reg : GlobalVarReferences) (V : Nat) (f : CxxString) :
    (V, f) ∈ diagCalls reg ↔ (V, [f]) ∈ reg := by
  induction reg with
  | nil => simp [diagCalls]
  | cons p t ih =>
    obtain ⟨var, temp⟩ := p
    unfold diagCalls
    split_ifs with hlen
    · rw [ih, List.mem_cons]
      constructor
      · exact fun h => Or.inr h
      · rintro (h | h)
        · simp only [Prod.mk.injEq] at h
          rw [← h.2] at hlen
          simp at hlen
        · exact h
    · rw [List.mem_append, ih, List.mem_cons]
      have hshape : temp = [] ∨ ∃ a, temp = [a] := by
        match temp, hlen with
        | [], _ => exact Or.inl rfl
        | [a], _ => exact Or.inr ⟨a, rfl⟩
        | _ :: _ :: _, h => simp at h
      rcases hshape with rfl | ⟨a, rfl⟩
      · simp
      · simp only [List.map_cons, List.map_nil, List.mem_singleton, Prod.mk.injEq,
          List.cons.injEq, and_true]

theorem mem_diagCalls_iff_mapFind (reg : GlobalVarReferences) (hwf : MapWF reg) (V : Nat)
    (f : CxxString) : (V, f) ∈ diagCalls reg ↔ mapFind V reg = some [f] := by
  rw [mem_diagCalls]
  exact ⟨mapFind_of_mem hwf, mem_of_mapFind⟩

theorem findOwner_sound {L : Nat} {idx : FunctionSpan} {n : CxxString}
    (h : findOwner L idx = some n) :
    ∃ s e rest, (n, (s, e) :: rest) ∈ idx ∧ s ≤ L ∧ L ≤ e := by
  induction idx with
  | nil => simp [findOwner] at h
  | cons p t ih =>
    obtain ⟨name, spans⟩ := p
    cases spans with
    | nil =>
      simp only [findOwner] at h
      obtain ⟨s, e, rest, hmem, hs, he⟩ := ih h
      exact ⟨s, e, rest, List.mem_cons_of_mem _ hmem, hs, he⟩
    | cons lines more =>
      simp only [findOwner] at h
      split_ifs at h with hin
      · simp only [Option.some.injEq] at h
        subst h
        exact ⟨lines.1, lines.2, more, by simp, hin.1, hin.2⟩
      · obtain ⟨s, e, rest, hmem, hs, he⟩ := ih h
        exact ⟨s, e, rest, List.mem_cons_of_mem _ hmem, hs, he⟩

theorem findOwner_eq_none_iff (L : Nat) (idx : FunctionSpan) :
    findOwner L idx = none ↔
      ∀ n s e rest, (n, (s, e) :: rest) ∈ idx → ¬ (s ≤ L ∧ L ≤ e) := by
  induction idx with
  | nil => simp [findOwner]
  | cons p t ih =>
    obtain ⟨name, spans⟩ := p
    cases spans with
    | nil =>
      simp only [findOwner, ih, List.mem_cons, Prod.mk.injEq]
      constructor
      · rintro h n s e rest (⟨_, h2⟩ | hmem)
        · simp at h2
        · exact h n s e rest hmem
      · intro h n s e rest hmem
        exact h n s e rest (Or.inr hmem)
    | cons lines more =>
      simp only [findOwner]
      split_ifs with hin
      · simp only [false_iff, reduceCtorEq]
        intro h
        exact h name lines.1 lines.2 more (by simp) hin
      · rw [ih]
        constructor
        · intro h n s e rest hmem
          rcases List.mem_cons.mp hmem with heq | hmem
          · simp only [Prod.mk.injEq, List.cons.injEq] at heq
            obtain ⟨-, hl, -⟩ := heq
            subst hl
            exact hin
          · exact h n s e rest hmem
        · intro h n s e rest hmem
          exact h n s e rest (List.mem_cons_of_mem _ hmem)

theorem findOwner_stored {L : Nat} {idx : FunctionSpan} {n : CxxString}
    (h : findOwner L idx = some n) : ∃ s e, Stored idx n s e ∧ s ≤ L ∧ L ≤ e := by
  obtain ⟨s, e, rest, hmem, hs, he⟩ := findOwner_sound h
  exact ⟨s, e, ⟨(n, (s, e) :: rest), hmem, rfl, by simp⟩, hs, he⟩

theorem findOwner_none_of_no_interval {L : Nat} {idx : FunctionSpan}
    (h : ∀ n s e, Stored idx n s e → ¬ (s ≤ L ∧ L ≤ e)) : findOwner L idx = none := by
  rw [findOwner_eq_none_iff]
  intro n s e rest hmem
  exact h n s e ⟨(n, (s, e) :: rest), hmem, rfl, by simp⟩


/-! ## Lemmas on the traversal -/

theorem TraverseDecl_append (st : State) (a b : List Event) :
    TraverseDecl st (a ++ b) = TraverseDecl (TraverseDecl st a) b := by
  simp [TraverseDecl, List.foldl_append]

theorem TraverseDecl_cons (st : State) (e : Event) (t : List Event) :
    TraverseDecl st (e :: t) = TraverseDecl (visit st e) t := rfl

theorem visit_functionSpan (st : State) (e : Event) :
    (visit st e).functionSpan = (recordedSpans [e]).foldl recordSpan st.functionSpan := by
  cases e with
  | functionDecl d =>
    simp only [visit, VisitFunctionDecl, recordedSpans, List.filterMap_cons, List.filterMap_nil]
    by_cases hh : isInHeader d.loc = true
    · simp [hh]
    · by_cases hv : (d.beginLoc.isValid && d.endLoc.isValid) = true
      · simp only [hh, hv]
        simp [recordSpan]
      · simp only [hh, hv]
        simp
  | varDecl var =>
    simp only [visit, VisitVarDecl, recordedSpans, List.filterMap_cons, List.filterMap_nil,
      List.foldl_nil]
    split_ifs <;> rfl
  | declRefExpr d =>
    simp only [visit, VisitDeclRefExpr, recordedSpans, List.filterMap_cons, List.filterMap_nil,
      List.foldl_nil]
    split <;> try rfl
    split_ifs
    · split <;> rfl
    · rfl

theorem recordedSpans_cons (e : Event) (t : List Event) :
    recordedSpans (e :: t) = recordedSpans [e] ++ recordedSpans t := by
  unfold recordedSpans
  rw [← List.filterMap_append]
  rfl

theorem TraverseDecl_functionSpan (st : State) (events : List Event) :
    (TraverseDecl st events).functionSpan =
      (recordedSpans events).foldl recordSpan st.functionSpan := by
  induction events generalizing st with
  | nil => rfl
  | cons e t ih =>
    rw [TraverseDecl_cons, ih, visit_functionSpan, recordedSpans_cons e t, List.foldl_append]

theorem recordedSpans_eq_nil {events : List Event}
    (h : ∀ x ∈ events, x.isFunctionDecl = false) : recordedSpans events = [] := by
  induction events with
  | nil => rfl
  | cons e t ih =>
    rw [recordedSpans_cons, ih (fun x hx => h x (List.mem_cons_of_mem _ hx))]
    have he := h e (List.mem_cons_self _ _)
    cases e with
    | functionDecl d => simp [Event.isFunctionDecl] at he
    | varDecl var => rfl
    | declRefExpr d => rfl

theorem refLines_cons (V : Nat) (e : Event) (t : List Event) :
    refLines V (e :: t) = refLines V [e] ++ refLines V t := by
  unfold refLines
  rw [← List.filterMap_append]
  rfl

theorem refLines_append (V : Nat) (a b : List Event) :
    refLines V (a ++ b) = refLines V a ++ refLines V b := by
  unfold refLines
  rw [List.filterMap_append]

theorem recordedSpans_append (a b : List Event) :
    recordedSpans (a ++ b) = recordedSpans a ++ recordedSpans b := by
  unfold recordedSpans
  rw [List.filterMap_append]

theorem refLines_eq_nil {V : Nat} {events : List Event}
    (h : ∀ x ∈ events, x.refersTo V = false) : refLines V events = [] := by
  induction events with
  | nil => rfl
  | cons e t ih =>
    rw [refLines_cons, ih (fun x hx => h x (List.mem_cons_of_mem _ hx))]
    have he := h e (List.mem_cons_self _ _)
    cases e with
    | functionDecl d => rfl
    | varDecl var => rfl
    | declRefExpr d =>
      simp only [Event.refersTo, decide_eq_false_iff_not] at he
      simp [refLines, he]

theorem visit_wf (st : State) (e : Event) (hwf : MapWF st.globalVarReferences) :
    MapWF (visit st e).globalVarReferences := by
  cases e with
  | functionDecl d =>
    simp only [visit, VisitFunctionDecl]
    split_ifs <;> exact hwf
  | varDecl var =>
    simp only [visit, VisitVarDecl]
    split_ifs
    · exact hwf
    · exact mapUpdate_wf _ _ _ hwf
    · exact hwf
  | declRefExpr d =>
    simp only [visit, VisitDeclRefExpr]
    split
    · exact hwf
    · split_ifs
      · split
        · exact mapUpdate_wf _ _ _ hwf
        · exact hwf
      · exact hwf

theorem TraverseDecl_wf (st : State) (events : List Event)
    (hwf : MapWF st.globalVarReferences) :
    MapWF (TraverseDecl st events).globalVarReferences := by
  induction events generalizing st with
  | nil => exact hwf
  | cons e t ih => exact ih (visit st e) (visit_wf st e hwf)

theorem visit_mapFind_other (st : State) (e : Event) (V : Nat)
    (ht : e.tracks V = false) (hr : e.refersTo V = false) :
    mapFind V (visit st e).globalVarReferences = mapFind V st.globalVarReferences := by
  cases e with
  | functionDecl d =>
    simp only [visit, VisitFunctionDecl]
    split_ifs <;> rfl
  | varDecl var =>
    simp only [visit, VisitVarDecl]
    split_ifs with hh hg
    · rfl
    · have hne : V ≠ var.ptr := by
        intro heq
        simp [Event.tracks, heq, hh, hg] at ht
      exact mapFind_mapUpdate_ne _ _ hne
    · rfl
  | declRefExpr d =>
    simp only [visit, VisitDeclRefExpr]
    split
    · rfl
    · rename_i W hW
      have hne : V ≠ W := by
        intro heq
        simp [Event.refersTo, hW, heq] at hr
      split_ifs
      · split
        · exact mapFind_mapUpdate_ne _ _ hne
        · rfl
      · rfl

theorem TraverseDecl_mapFind_other (st : State) (events : List Event) (V : Nat)
    (h : ∀ x ∈ events, x.tracks V = false ∧ x.refersTo V = false) :
    mapFind V (TraverseDecl st events).globalVarReferences =
      mapFind V st.globalVarReferences := by
  induction events generalizing st with
  | nil => rfl
  | cons e t ih =>
    rw [TraverseDecl_cons, ih _ (fun x hx => h x (List.mem_cons_of_mem _ hx))]
    exact visit_mapFind_other st e V (h e (List.mem_cons_self _ _)).1
      (h e (List.mem_cons_self _ _)).2

theorem visit_tracks (st : State) (e : Event) (V : Nat) (ht : e.tracks V = true) :
    mapFind V (visit st e).globalVarReferences = some [] := by
  cases e with
  | functionDecl d => simp [Event.tracks] at ht
  | declRefExpr d => simp [Event.tracks] at ht
  | varDecl var =>
    simp only [Event.tracks, Bool.and_eq_true, decide_eq_true_eq, Bool.not_eq_true'] at ht
    obtain ⟨⟨hp, hh⟩, hg⟩ := ht
    subst hp
    simp only [visit, VisitVarDecl, hh, hg]
    exact mapFind_mapUpdate_const _ _ _


theorem addOwners_append (idx : FunctionSpan) (S : List CxxString) (l1 l2 : List Nat) :
    addOwners idx S (l1 ++ l2) = addOwners idx (addOwners idx S l1) l2 := by
  simp [addOwners, List.foldl_append]

theorem mem_addOwners (idx : FunctionSpan) (S : List CxxString) (lines : List Nat)
    (g : CxxString) :
    g ∈ addOwners idx S lines ↔ g ∈ S ∨ ∃ L ∈ lines, findOwner L idx = some g := by
  induction lines generalizing S with
  | nil => simp [addOwners]
  | cons L t ih =>
    have hstep : addOwners idx S (L :: t) =
        addOwners idx (match findOwner L idx with
          | some funcName => setInsert funcName S
          | none => S) t := rfl
    rw [hstep, ih]
    cases hfo : findOwner L idx with
    | none => simp [hfo]
    | some n =>
      simp only [mem_setInsert, List.mem_cons, exists_eq_or_imp, hfo, Option.some.injEq]
      constructor
      · rintro ((h | h) | h)
        · exact Or.inr (Or.inl h.symm)
        · exact Or.inl h
        · exact Or.inr (Or.inr h)
      · rintro (h | h | h)
        · exact Or.inl (Or.inr h)
        · exact Or.inl (Or.inl h.symm)
        · exact Or.inr h

theorem addOwners_wf (idx : FunctionSpan) (S : List CxxString) (lines : List Nat)
    (h : SetWF S) : SetWF (addOwners idx S lines) := by
  induction lines generalizing S with
  | nil => exact h
  | cons L t ih =>
    have hstep : addOwners idx S (L :: t) =
        addOwners idx (match findOwner L idx with
          | some funcName => setInsert funcName S
          | none => S) t := rfl
    rw [hstep]
    apply ih
    cases findOwner L idx with
    | none => exact h
    | some n => exact setInsert_wf n S h

theorem visit_mapFind_fixed (st : State) (e : Event) (V : Nat)
    (hwf : MapWF st.globalVarReferences) (hf : e.isFunctionDecl = false)
    (ht : e.tracks V = false) :
    mapFind V (visit st e).globalVarReferences =
        (mapFind V st.globalVarReferences).map
          (fun S => addOwners st.functionSpan S (refLines V [e])) := by
  by_cases hr : e.refersTo V = true
  · cases e with
    | functionDecl d => simp [Event.refersTo] at hr
    | varDecl var => simp [Event.refersTo] at hr
    | declRefExpr d =>
      simp only [Event.refersTo, decide_eq_true_eq] at hr
      simp only [visit, VisitDeclRefExpr, hr, refLines, List.filterMap_cons, List.filterMap_nil,
        if_true, addOwners, List.foldl_cons, List.foldl_nil]
      cases hV : mapFind V st.globalVarReferences with
      | none => simp [mapContains, hV]
      | some S =>
        simp only [mapContains, hV, Option.isSome_some, if_true, Option.map_some']
        cases hfo : findOwner d.spellingLineNumber st.functionSpan with
        | none => simp [hV]
        | some n =>
          simp only []
          rw [mapFind_mapUpdate_self _ _ _ hwf, hV]
          rfl
  · have hr' : e.refersTo V = false := by simpa using hr
    rw [visit_mapFind_other st e V ht hr', @refLines_eq_nil V [e]
      (by simpa using hr')]
    cases mapFind V st.globalVarReferences <;> rfl

theorem visit_functionSpan_fixed (st : State) (e : Event) (hf : e.isFunctionDecl = false) :
    (visit st e).functionSpan = st.functionSpan := by
  rw [visit_functionSpan, @recordedSpans_eq_nil [e] (by simpa using hf)]
  rfl

theorem TraverseDecl_mapFind_fixed (st : State) (events : List Event) (V : Nat)
    (hwf : MapWF st.globalVarReferences)
    (h : ∀ x ∈ events, x.isFunctionDecl = false ∧ x.tracks V = false) :
    mapFind V (TraverseDecl st events).globalVarReferences =
        (mapFind V st.globalVarReferences).map
          (fun S => addOwners st.functionSpan S (refLines V events)) := by
  induction events generalizing st with
  | nil =>
    cases hV : mapFind V st.globalVarReferences <;> simp [TraverseDecl, hV, refLines, addOwners]
  | cons e t ih =>
    have he := h e (List.mem_cons_self _ _)
    rw [TraverseDecl_cons, ih (visit st e) (visit_wf st e hwf)
      (fun x hx => h x (List.mem_cons_of_mem _ hx)),
      visit_mapFind_fixed st e V hwf he.1 he.2, visit_functionSpan_fixed st e he.1,
      refLines_cons V e t]
    cases mapFind V st.globalVarReferences with
    | none => rfl
    | some S => simp [addOwners_append]

theorem exists_split_of_order (events : List Event)
    (h : events.Pairwise
      (fun a b => ¬ (a.isDeclRefExpr = true ∧ b.isFunctionDecl = true))) :
    ∃ A B, events = A ++ B ∧ (∀ x ∈ A, x.isDeclRefExpr = false) ∧
      (∀ x ∈ B, x.isFunctionDecl = false) := by
  induction events with
  | nil => exact ⟨[], [], rfl, by simp, by simp⟩
  | cons e t ih =>
    rw [List.pairwise_cons] at h
    by_cases he : e.isDeclRefExpr = true
    · refine ⟨[], e :: t, rfl, by simp, ?_⟩
      intro x hx
      rcases List.mem_cons.mp hx with rfl | hx
      · cases x <;> simp_all [Event.isDeclRefExpr, Event.isFunctionDecl]
      · have := h.1 x hx
        simpa [he] using this
    · obtain ⟨A, B, hAB, hA, hB⟩ := ih h.2
      refine ⟨e :: A, B, by simp [hAB], ?_, hB⟩
      intro x hx
      rcases List.mem_cons.mp hx with rfl | hx
      · simpa using he
      · exact hA x hx

theorem SpansApart.symm {a b : CxxString × Nat × Nat} (h : SpansApart a b) : SpansApart b a :=
  ⟨fun heq => h.1 heq.symm, fun L hL => h.2 L ⟨hL.2, hL.1⟩⟩

theorem mem_foldl_recordSpan (recs : List (CxxString × Nat × Nat)) (idx : FunctionSpan)
    (hd : recs.Pairwise (fun a b => a.1 ≠ b.1)) (hk : ∀ r ∈ recs, r.1 ∉ mapKeys idx)
    (x : CxxString × List (Nat × Nat)) :
    x ∈ recs.foldl recordSpan idx ↔ x ∈ idx ∨ ∃ r ∈ recs, x = (r.1, [(r.2.1, r.2.2)]) := by
  induction recs generalizing idx with
  | nil => simp
  | cons r t ih =>
    rw [List.pairwise_cons] at hd
    have hk' : ∀ r' ∈ t, r'.1 ∉ mapKeys (recordSpan idx r) := by
      intro r' hr' hmem
      unfold recordSpan at hmem
      rcases (mem_mapKeys_mapUpdate _ _ _ _).mp hmem with heq | hmem
      · exact hd.1 r' hr' heq.symm
      · exact hk r' (List.mem_cons_of_mem _ hr') hmem
    rw [List.foldl_cons, ih (recordSpan idx r) hd.2 hk']
    have hnew : ∀ y, y ∈ recordSpan idx r ↔ y = (r.1, [(r.2.1, r.2.2)]) ∨ y ∈ idx := by
      intro y
      unfold recordSpan
      rw [mem_mapUpdate_of_not_mem_keys _ _ _ (hk r (List.mem_cons_self _ _))]
      simp [mapInsert, mapUpdate]
    rw [hnew]
    simp only [List.mem_cons, exists_eq_or_imp]
    tauto

theorem findOwner_iff_recorded (recs : List (CxxString × Nat × Nat))
    (hp : recs.Pairwise SpansApart) (L : Nat) (g : CxxString) :
    findOwner L (recs.foldl recordSpan []) = some g ↔
      ∃ r ∈ recs, r.1 = g ∧ r.2.1 ≤ L ∧ L ≤ r.2.2 := by
  have hd : recs.Pairwise (fun a b => a.1 ≠ b.1) := hp.imp (fun h => h.1)
  have hmem := mem_foldl_recordSpan recs [] hd (by simp [mapKeys])
  have hfwd : ∀ g', findOwner L (recs.foldl recordSpan []) = some g' →
      ∃ r ∈ recs, r.1 = g' ∧ r.2.1 ≤ L ∧ L ≤ r.2.2 := by
    intro g' h
    obtain ⟨s, e, rest, hin, hs, he⟩ := findOwner_sound h
    rcases (hmem _).mp hin with hnil | ⟨r, hr, heq⟩
    · simp at hnil
    · simp only [Prod.mk.injEq, List.cons.injEq] at heq
      obtain ⟨h1, ⟨h2, h3⟩, -⟩ := heq
      exact ⟨r, hr, h1.symm, by omega, by omega⟩
  constructor
  · exact hfwd g
  · rintro ⟨r, hr, hname, hs, he⟩
    cases hfo : findOwner L (recs.foldl recordSpan []) with
    | none =>
      rw [findOwner_eq_none_iff] at hfo
      exact absurd ⟨hs, he⟩
        (hfo r.1 r.2.1 r.2.2 [] ((hmem _).mpr (Or.inr ⟨r, hr, rfl⟩)))
    | some g' =>
      obtain ⟨r', hr', hname', hs', he'⟩ := hfwd g' hfo
      by_cases hrr : r = r'
      · subst hrr
        rw [← hname, ← hname']
      · have hap : SpansApart r r' :=
          List.Pairwise.forall (fun _ _ h => SpansApart.symm h) hp hr hr' hrr
        exact absurd ⟨⟨hs, he⟩, ⟨hs', he'⟩⟩ (hap.2 L)

theorem eq_singleton_iff_of_nodup {α : Type} {l : List α} (hn : l.Nodup) (f : α) :
    l = [f] ↔ ∀ g, g ∈ l ↔ g = f := by
  constructor
  · rintro rfl g
    simp
  · intro h
    match l, hn, h with
    | [], _, h => exact absurd ((h f).mpr rfl) (by simp)
    | [a], _, h =>
      have := (h a).mp (by simp)
      rw [this]
    | a :: b :: t, hn, h =>
      have ha := (h a).mp (by simp)
      have hb := (h b).mp (by simp)
      rw [List.nodup_cons] at hn
      exact absurd (by simp [ha, hb]) hn.1


/-! ## The report selects the variables with one referencing function -/

/-- C1: for every registry and every variable `V`, `showGlobalVariables` reaches
`displayDiag` for `V` if and only if the set mapped to `V` has exactly one member;
in particular a `V` whose set has two or more members gets no diagnostic. -/
theorem showGlobalVariables_reports_iff_one_member (reg : GlobalVarReferences)
    (hwf : MapWF reg) (V : Nat) :
    ((∃ f, (V, f) ∈ diagCalls reg) ↔ ∃ S, mapFind V reg = some S ∧ S.length = 1) ∧
      (∀ S, mapFind V reg = some S → 2 ≤ S.length → ∀ f, (V, f) ∉ diagCalls reg) := by
  refine ⟨⟨?_, ?_⟩, ?_⟩
  · rintro ⟨f, hf⟩
    exact ⟨[f], (mem_diagCalls_iff_mapFind reg hwf V f).mp hf, rfl⟩
  · rintro ⟨S, hS, hlen⟩
    match S, hlen with
    | [a], _ => exact ⟨a, (mem_diagCalls_iff_mapFind reg hwf V a).mpr hS⟩
  · intro S hS hlen f hf
    rw [mem_diagCalls_iff_mapFind reg hwf V f, hS] at hf
    simp only [Option.some.injEq] at hf
    rw [hf] at hlen
    simp at hlen

/-- C1, at a registry where variable 1 has one referencing function and variable 2
has two. -/
theorem showGlobalVariables_reports_iff_one_member_witness :
    MapWF [(1, ["increment".toList]), (2, ["increment".toList, "reset".toList])] ∧
      (((∃ f, (1, f) ∈
            diagCalls [(1, ["increment".toList]), (2, ["increment".toList, "reset".toList])]) ↔
          ∃ S, mapFind 1 [(1, ["increment".toList]),
            (2, ["increment".toList, "reset".toList])] = some S ∧ S.length = 1) ∧
        (∀ S, mapFind 1 [(1, ["increment".toList]),
            (2, ["increment".toList, "reset".toList])] = some S → 2 ≤ S.length →
          ∀ f, (1, f) ∉
            diagCalls [(1, ["increment".toList]), (2, ["increment".toList, "reset".toList])])) :=
  ⟨by decide,
    showGlobalVariables_reports_iff_one_member
      [(1, ["increment".toList]), (2, ["increment".toList, "reset".toList])] (by decide) 1⟩

/-! ## Resolution of a reference to its owner -/

/-- C3: when `VisitDeclRefExpr` handles a reference at line `L` to a tracked
variable `V`, every name it adds to the set of `V` has, in the span index, an
interval `(s, e)` with `s ≤ L ≤ e`; and when no stored interval contains `L` the
state, hence the set of `V`, is left as it was. -/
theorem VisitDeclRefExpr_added_owner_contains_line (st : State) (V L : Nat)
    (u : Option Nat) (S : List CxxString) (hwf : MapWF st.globalVarReferences)
    (hV : mapFind V st.globalVarReferences = some S) :
    (∃ S', mapFind V (VisitDeclRefExpr st ⟨some V, L, u⟩).globalVarReferences = some S' ∧
        ∀ f, f ∈ S' → f ∉ S → ∃ s e, Stored st.functionSpan f s e ∧ s ≤ L ∧ L ≤ e) ∧
      ((∀ n s e, Stored st.functionSpan n s e → ¬ (s ≤ L ∧ L ≤ e)) →
        VisitDeclRefExpr st ⟨some V, L, u⟩ = st) := by
  constructor
  · simp only [VisitDeclRefExpr, DeclRefExpr.var, mapContains, hV, Option.isSome_some, if_true]
    cases hfo : findOwner L st.functionSpan with
    | none => exact ⟨S, hV, fun f hf hnf => absurd hf hnf⟩
    | some n =>
      refine ⟨setInsert n S, ?_, ?_⟩
      · simp only []
        rw [mapFind_mapUpdate_self _ _ _ hwf, hV]
        rfl
      · intro f hf hnf
        rcases (mem_setInsert n f S).mp hf with rfl | hf
        · exact findOwner_stored hfo
        · exact absurd hf hnf
  · intro hno
    simp only [VisitDeclRefExpr, DeclRefExpr.var, findOwner_none_of_no_interval hno]
    split_ifs <;> rfl

/-- C3, at the state after `counter` and `increment` (lines 3 to 5) are declared,
for a reference at line 4. -/
theorem VisitDeclRefExpr_added_owner_contains_line_witness :
    (∃ S', mapFind 7 (VisitDeclRefExpr
          ⟨[("increment".toList, [(3, 5)])], [(7, [])]⟩ ⟨some 7, 4, none⟩).globalVarReferences
          = some S' ∧
        ∀ f, f ∈ S' → f ∉ ([] : List CxxString) →
          ∃ s e, Stored [("increment".toList, [(3, 5)])] f s e ∧ s ≤ 4 ∧ 4 ≤ e) ∧
      ((∀ n s e, Stored [("increment".toList, [(3, 5)])] n s e → ¬ (s ≤ 4 ∧ 4 ≤ e)) →
        VisitDeclRefExpr ⟨[("increment".toList, [(3, 5)])], [(7, [])]⟩ ⟨some 7, 4, none⟩ =
          ⟨[("increment".toList, [(3, 5)])], [(7, [])]⟩) :=
  VisitDeclRefExpr_added_owner_contains_line
    ⟨[("increment".toList, [(3, 5)])], [(7, [])]⟩ 7 4 none [] (by decide) (by decide)

/-- C4: the owner loop reads only the first interval of each name. With `helper`
recorded at lines 1 to 3 and at lines 10 to 13, the interval `(10, 13)` is stored
and contains line 11, yet no owner is found for a reference at line 11 and the
set of the referenced variable stays empty. -/
theorem findOwner_misses_later_interval :
    Stored (TraverseDecl State.empty (helperEvents.take 3)).functionSpan "helper".toList 10 13 ∧
      findOwner 11 (TraverseDecl State.empty (helperEvents.take 3)).functionSpan = none ∧
      mapFind 7 (VisitDeclRefExpr (TraverseDecl State.empty (helperEvents.take 3))
        (sampleRef 7 11)).globalVarReferences = some [] := by
  decide


/-- C5, as stated, fails on scenario 5: after both references the set of `g` holds
the single name `helper`, and `g` is reported as owned by `helper`. -/
theorem helper_overloads_are_merged :
    mapFind 7 (TraverseDecl State.empty helperEvents).globalVarReferences
        = some ["helper".toList] ∧
      diagCalls (TraverseDecl State.empty helperEvents).globalVarReferences
        = [(7, "helper".toList)] := by
  decide

/-- C5, amended: referencing functions are recorded by display name. When two
recorded functions share a name, have spans with no line in common, and a tracked
global is referenced once inside each, the registry maps the global to the set
holding that one name, and the global is reported with that name. -/
theorem same_name_functions_count_as_one_owner (v : VarDecl) (d1 d2 : FunctionDecl)
    (L1 L2 : Nat) (u1 u2 : Option Nat) (hv : isInHeader v.loc = false)
    (hg : v.hasGlobalStorage = true)
    (h1 : isInHeader d1.loc = false) (h2 : isInHeader d2.loc = false)
    (hv1 : d1.beginLoc.isValid = true ∧ d1.endLoc.isValid = true)
    (hv2 : d2.beginLoc.isValid = true ∧ d2.endLoc.isValid = true)
    (hname : d2.nameAsString = d1.nameAsString)
    (hapart : d1.endLoc.spellingLineNumber < d2.beginLoc.spellingLineNumber ∨
      d2.endLoc.spellingLineNumber < d1.beginLoc.spellingLineNumber)
    (hL1 : d1.beginLoc.spellingLineNumber ≤ L1 ∧ L1 ≤ d1.endLoc.spellingLineNumber)
    (hL2 : d2.beginLoc.spellingLineNumber ≤ L2 ∧ L2 ≤ d2.endLoc.spellingLineNumber) :
    (TraverseDecl State.empty
        [.varDecl v, .functionDecl d1, .functionDecl d2,
          .declRefExpr ⟨some v.ptr, L1, u1⟩,
          .declRefExpr ⟨some v.ptr, L2, u2⟩]).globalVarReferences
        = [(v.ptr, [d1.nameAsString])] ∧
      diagCalls (TraverseDecl State.empty
        [.varDecl v, .functionDecl d1, .functionDecl d2,
          .declRefExpr ⟨some v.ptr, L1, u1⟩,
          .declRefExpr ⟨some v.ptr, L2, u2⟩]).globalVarReferences
        = [(v.ptr, d1.nameAsString)] := by
  have hstate : (TraverseDecl State.empty
        [.varDecl v, .functionDecl d1, .functionDecl d2,
          .declRefExpr ⟨some v.ptr, L1, u1⟩,
          .declRefExpr ⟨some v.ptr, L2, u2⟩]).globalVarReferences
        = [(v.ptr, [d1.nameAsString])] := by
    rcases hapart with hlt | hlt
    · have a1 : d1.beginLoc.spellingLineNumber < d2.beginLoc.spellingLineNumber := by omega
      have a2 : ¬ d2.beginLoc.spellingLineNumber < d1.beginLoc.spellingLineNumber := by omega
      have a3 : ¬ L2 ≤ d1.endLoc.spellingLineNumber := by omega
      simp [TraverseDecl, visit, VisitVarDecl, VisitFunctionDecl, VisitDeclRefExpr,
        DeclRefExpr.var, State.empty,
        hv, hg, h1, h2, hv1, hv2, hname, mapUpdate, mapInsert, mapContains, mapFind, findOwner,
        setInsert, a1, a2, a3, hL1]
    · have a1 : d2.beginLoc.spellingLineNumber < d1.beginLoc.spellingLineNumber := by omega
      have a3 : ¬ L1 ≤ d2.endLoc.spellingLineNumber := by omega
      simp [TraverseDecl, visit, VisitVarDecl, VisitFunctionDecl, VisitDeclRefExpr,
        DeclRefExpr.var, State.empty,
        hv, hg, h1, h2, hv1, hv2, hname, mapUpdate, mapInsert, mapContains, mapFind, findOwner,
        setInsert, a1, a3, hL2]
  rw [hstate]
  exact ⟨rfl, by simp [diagCalls]⟩

/-- C5 amended, at scenario 5: `helper` at lines 1 to 3 and at lines 10 to 13, `g`
referenced at lines 2 and 11. -/
theorem same_name_functions_count_as_one_owner_witness :
    (TraverseDecl State.empty
        [.varDecl (sampleGlobal 7 "g"), .functionDecl (sampleFunction "helper" 1 3),
          .functionDecl (sampleFunction "helper" 10 13),
          .declRefExpr ⟨some (sampleGlobal 7 "g").ptr, 2, none⟩,
          .declRefExpr ⟨some (sampleGlobal 7 "g").ptr, 11, none⟩]).globalVarReferences
        = [((sampleGlobal 7 "g").ptr, [(sampleFunction "helper" 1 3).nameAsString])] ∧
      diagCalls (TraverseDecl State.empty
        [.varDecl (sampleGlobal 7 "g"), .functionDecl (sampleFunction "helper" 1 3),
          .functionDecl (sampleFunction "helper" 10 13),
          .declRefExpr ⟨some (sampleGlobal 7 "g").ptr, 2, none⟩,
          .declRefExpr ⟨some (sampleGlobal 7 "g").ptr, 11, none⟩]).globalVarReferences
        = [((sampleGlobal 7 "g").ptr, (sampleFunction "helper" 1 3).nameAsString)] :=
  same_name_functions_count_as_one_owner (sampleGlobal 7 "g") (sampleFunction "helper" 1 3)
    (sampleFunction "helper" 10 13) 2 11 none none (by decide) (by decide) (by decide) (by decide)
    (by decide) (by decide) (by decide) (by decide) (by decide) (by decide)

/-! ## Aggregation is idempotent -/

theorem refLines_map_declRefExpr (V : Nat) (u : Option Nat) (lines : List Nat) :
    refLines V (lines.map (fun L => Event.declRefExpr ⟨some V, L, u⟩)) = lines := by
  induction lines with
  | nil => rfl
  | cons L t ih =>
    rw [List.map_cons, refLines_cons, ih]
    simp [refLines, DeclRefExpr.var]

/-- C6: against a fixed span index, `N ≥ 1` references to a tracked variable with
an empty set, at lines that all resolve to the same function `f`, leave the
variable with the set `{f}`, of size 1; and handling any reference a second time
changes nothing. -/
theorem references_aggregate_idempotently (st : State) :
    (∀ (V : Nat) (u : Option Nat) (f : CxxString) (lines : List Nat),
        MapWF st.globalVarReferences →
        mapFind V st.globalVarReferences = some [] → lines ≠ [] →
        (∀ L ∈ lines, findOwner L st.functionSpan = some f) →
        mapFind V (TraverseDecl st
          (lines.map (fun L => Event.declRefExpr ⟨some V, L, u⟩))).globalVarReferences
          = some [f]) ∧
      (∀ d, VisitDeclRefExpr (VisitDeclRefExpr st d) d = VisitDeclRefExpr st d) := by
  constructor
  · intro V u f lines hwf hV hne hres
    rw [TraverseDecl_mapFind_fixed st _ V hwf, hV, refLines_map_declRefExpr]
    · simp only [Option.map_some', Option.some.injEq]
      rw [eq_singleton_iff_of_nodup (SetWF.nodup (addOwners_wf _ _ _ (by simp [SetWF])))]
      intro g
      rw [mem_addOwners]
      constructor
      · rintro (h | ⟨L, hL, hfo⟩)
        · simp at h
        · rw [hres L hL] at hfo
          exact (Option.some.inj hfo).symm
      · rintro rfl
        obtain ⟨L, hL⟩ := List.exists_mem_of_ne_nil lines hne
        exact Or.inr ⟨L, hL, hres L hL⟩
    · intro x hx
      obtain ⟨L, -, rfl⟩ := List.mem_map.mp hx
      exact ⟨rfl, rfl⟩
  · intro d
    cases hvar : d.var with
    | none => simp [VisitDeclRefExpr, hvar]
    | some var =>
      by_cases hc : mapContains var st.globalVarReferences = true
      · cases hfo : findOwner d.spellingLineNumber st.functionSpan with
        | none => simp [VisitDeclRefExpr, hvar, hc, hfo]
        | some n =>
          have hc' : mapContains var
              (mapUpdate var (fun o => setInsert n (o.getD [])) st.globalVarReferences) = true := by
            rw [mapContains_iff, mem_mapKeys_mapUpdate]
            exact Or.inl rfl
          simp only [VisitDeclRefExpr, hvar, hc, hfo, if_true, hc']
          rw [mapUpdate_idem]
          intro o
          simp [setInsert_idem]
      · simp [VisitDeclRefExpr, hvar, hc]

/-- C6, at the state after `counter` and `increment` (lines 3 to 5) are declared,
for three references at lines 3, 4 and 4. -/
theorem references_aggregate_idempotently_witness :
    mapFind 7 (TraverseDecl ⟨[("increment".toList, [(3, 5)])], [(7, [])]⟩
      ([3, 4, 4].map (fun L => Event.declRefExpr ⟨some 7, L, none⟩))).globalVarReferences
      = some ["increment".toList] :=
  (references_aggregate_idempotently ⟨[("increment".toList, [(3, 5)])], [(7, [])]⟩).1
    7 none "increment".toList [3, 4, 4] (by decide) (by decide) (by decide) (by decide)


/-! ## What enters the registry -/

theorem mem_mapKeys_visit {st : State} {e : Event} {V : Nat}
    (h : V ∈ mapKeys (visit st e).globalVarReferences) :
    V ∈ mapKeys st.globalVarReferences ∨ e.tracks V = true := by
  cases e with
  | functionDecl d =>
    simp only [visit, VisitFunctionDecl] at h
    split_ifs at h <;> exact Or.inl h
  | varDecl var =>
    simp only [visit, VisitVarDecl] at h
    split_ifs at h with hh hg
    · exact Or.inl h
    · rcases (mem_mapKeys_mapUpdate _ _ _ _).mp h with heq | hmem
      · right
        simp only [Bool.not_eq_true] at hh
        simp [Event.tracks, heq, hh, hg]
      · exact Or.inl hmem
    · exact Or.inl h
  | declRefExpr d =>
    left
    simp only [visit, VisitDeclRefExpr] at h
    split at h
    · exact h
    · split_ifs at h with hc
      · split at h
        · rcases (mem_mapKeys_mapUpdate _ _ _ _).mp h with heq | hmem
          · rw [heq]
            exact (mapContains_iff _ _).mp hc
          · exact hmem
        · exact h
      · exact h

theorem mem_mapKeys_TraverseDecl {st : State} {events : List Event} {V : Nat}
    (h : V ∈ mapKeys (TraverseDecl st events).globalVarReferences) :
    V ∈ mapKeys st.globalVarReferences ∨ ∃ e ∈ events, e.tracks V = true := by
  induction events generalizing st with
  | nil => exact Or.inl h
  | cons e t ih =>
    rcases @ih (visit st e) h with hk | ⟨x, hx, hxt⟩
    · rcases mem_mapKeys_visit hk with hk | ht
      · exact Or.inl hk
      · exact Or.inr ⟨e, List.mem_cons_self _ _, ht⟩
    · exact Or.inr ⟨x, List.mem_cons_of_mem _ hx, hxt⟩

theorem tracks_iff (e : Event) (V : Nat) :
    e.tracks V = true ↔
      ∃ var, e = .varDecl var ∧ var.ptr = V ∧ isInHeader var.loc = false ∧
        var.hasGlobalStorage = true := by
  cases e with
  | functionDecl d => simp [Event.tracks]
  | declRefExpr d => simp [Event.tracks]
  | varDecl var =>
    simp only [Event.tracks, Bool.and_eq_true, decide_eq_true_eq, Bool.not_eq_true',
      Event.varDecl.injEq, exists_eq_left']
    tauto

/-- C7: processing a stream from the empty state, a variable that is a key of the
registry after any prefix of the stream was visited by `VisitVarDecl` as a
declaration that is not in a header and has global storage; so a variable whose
declaration visits are all in a header or without global storage is never a key,
whatever references target it. -/
theorem registry_holds_only_nonheader_globals (events : List Event) (V : Nat) :
    (∀ pre, pre <+: events →
        V ∈ mapKeys (TraverseDecl State.empty pre).globalVarReferences →
        ∃ var, Event.varDecl var ∈ events ∧ var.ptr = V ∧ isInHeader var.loc = false ∧
          var.hasGlobalStorage = true) ∧
      ((∀ var, Event.varDecl var ∈ events → var.ptr = V →
          isInHeader var.loc = true ∨ var.hasGlobalStorage = false) →
        ∀ pre, pre <+: events →
          mapContains V (TraverseDecl State.empty pre).globalVarReferences = false) := by
  have main : ∀ pre, pre <+: events →
      V ∈ mapKeys (TraverseDecl State.empty pre).globalVarReferences →
      ∃ var, Event.varDecl var ∈ events ∧ var.ptr = V ∧ isInHeader var.loc = false ∧
        var.hasGlobalStorage = true := by
    intro pre hpre hmem
    rcases mem_mapKeys_TraverseDecl hmem with hk | ⟨e, he, ht⟩
    · simp [State.empty, mapKeys] at hk
    · obtain ⟨var, rfl, hp, hh, hg⟩ := (tracks_iff e V).mp ht
      exact ⟨var, hpre.subset he, hp, hh, hg⟩
  refine ⟨main, ?_⟩
  intro hall pre hpre
  cases hc : mapContains V (TraverseDecl State.empty pre).globalVarReferences with
  | false => rfl
  | true =>
    obtain ⟨var, hin, hp, hh, hg⟩ := main pre hpre ((mapContains_iff _ _).mp hc)
    rcases hall var hin hp with h | h
    · rw [hh] at h
      exact absurd h (by decide)
    · rw [hg] at h
      exact absurd h (by decide)

/-- C7, on a stream where `flag` (address 9) is declared in `utils.h` and referenced
from `increment`: it is not a key of the registry at the end. -/
theorem registry_holds_only_nonheader_globals_witness :
    mapContains 9 (TraverseDecl State.empty
      [.varDecl ⟨9, ⟨true, false, "utils.h".toList, 2⟩, true, "flag".toList⟩,
        .functionDecl (sampleFunction "increment" 3 5),
        .declRefExpr (sampleRef 9 4)]).globalVarReferences = false :=
  (registry_holds_only_nonheader_globals
    [.varDecl ⟨9, ⟨true, false, "utils.h".toList, 2⟩, true, "flag".toList⟩,
      .functionDecl (sampleFunction "increment" 3 5),
      .declRefExpr (sampleRef 9 4)] 9).2
    (by
      intro var hin hp
      simp only [List.mem_cons, Event.varDecl.injEq, reduceCtorEq, List.mem_singleton,
        or_false, List.mem_nil_iff] at hin
      subst hin
      exact Or.inl (by decide))
    _ (List.prefix_refl _)

/-! ## Unreferenced globals -/

theorem TraverseDecl_unreferenced (st : State) (events : List Event) (V : Nat)
    (h : ∀ x ∈ events, x.refersTo V = false)
    (hst : mapFind V st.globalVarReferences = none ∨
      mapFind V st.globalVarReferences = some []) :
    mapFind V (TraverseDecl st events).globalVarReferences = none ∨
      mapFind V (TraverseDecl st events).globalVarReferences = some [] := by
  induction events generalizing st with
  | nil => exact hst
  | cons e t ih =>
    apply ih (visit st e) (fun x hx => h x (List.mem_cons_of_mem _ hx))
    by_cases ht : e.tracks V = true
    · exact Or.inr (visit_tracks st e V ht)
    · rw [visit_mapFind_other st e V (by simpa using ht) (h e (List.mem_cons_self _ _))]
      exact hst

/-- C8: processing from the empty state a stream in which no reference targets
`V`, the report has no diagnostic for `V`, whether `V` is tracked or not. -/
theorem unreferenced_global_is_not_reported (events : List Event) (V : Nat)
    (h : ∀ x ∈ events, x.refersTo V = false) (f : CxxString) :
    (V, f) ∉ diagCalls (TraverseDecl State.empty events).globalVarReferences := by
  have hwf : MapWF (TraverseDecl State.empty events).globalVarReferences :=
    TraverseDecl_wf _ _ (by simp [State.empty, MapWF, mapKeys])
  rw [mem_diagCalls_iff_mapFind _ hwf]
  rcases TraverseDecl_unreferenced State.empty events V h (Or.inl rfl) with h0 | h0
  · rw [h0]
    simp
  · rw [h0]
    simp

/-- C8, on scenario 4: `x` (address 8) is declared and never referenced, while
`counter` is referenced from `increment`. -/
theorem unreferenced_global_is_not_reported_witness :
    (8, "increment".toList) ∉ diagCalls (TraverseDecl State.empty
      (.varDecl (sampleGlobal 8 "x") :: counterEvents)).globalVarReferences :=
  unreferenced_global_is_not_reported (.varDecl (sampleGlobal 8 "x") :: counterEvents) 8
    (by decide) "increment".toList


/-! ## End-to-end correctness on well-formed streams -/

theorem refersTo_eq_false_of_not_declRefExpr {x : Event} (V : Nat)
    (h : x.isDeclRefExpr = false) : x.refersTo V = false := by
  cases x with
  | functionDecl d => rfl
  | varDecl var => rfl
  | declRefExpr d => simp [Event.isDeclRefExpr] at h

theorem refersTo_eq_false_of_tracks {x : Event} {V : Nat} (h : x.tracks V = true) :
    x.refersTo V = false ∧ x.isFunctionDecl = false := by
  cases x with
  | functionDecl d => simp [Event.tracks] at h
  | varDecl var => exact ⟨rfl, rfl⟩
  | declRefExpr d => simp [Event.tracks] at h

theorem mem_addOwners_recorded (events : List Event) (V : Nat)
    (hapart : (recordedSpans events).Pairwise SpansApart) (g : CxxString) :
    g ∈ addOwners ((recordedSpans events).foldl recordSpan []) [] (refLines V events) ↔
      Owns events V g := by
  rw [mem_addOwners]
  simp only [List.not_mem_nil, false_or, findOwner_iff_recorded _ hapart]
  unfold Owns
  constructor
  · rintro ⟨L, hL, r, hr, hname, hs, he⟩
    exact ⟨r, hr, hname, L, hL, hs, he⟩
  · rintro ⟨r, hr, hname, L, hL, hs, he⟩
    exact ⟨L, hL, r, hr, hname, hs, he⟩

/-- The set of `V` at the end of a well-formed stream: the owners, in the final
span index, of the lines at which the stream refers to `V`. -/
theorem TraverseDecl_final_set (pre post : List Event) (e : Event) (V : Nat)
    (he : e.tracks V = true)
    (hpre : ∀ x ∈ pre, x.tracks V = false ∧ x.refersTo V = false)
    (hpost : ∀ x ∈ post, x.tracks V = false)
    (horder : (pre ++ e :: post).Pairwise
      (fun a b => ¬ (a.isDeclRefExpr = true ∧ b.isFunctionDecl = true))) :
    mapFind V (TraverseDecl State.empty (pre ++ e :: post)).globalVarReferences =
      some (addOwners ((recordedSpans (pre ++ e :: post)).foldl recordSpan []) []
        (refLines V (pre ++ e :: post))) := by
  have hop : post.Pairwise
      (fun a b => ¬ (a.isDeclRefExpr = true ∧ b.isFunctionDecl = true)) :=
    (List.pairwise_cons.mp (List.pairwise_append.mp horder).2.1).2
  obtain ⟨A, B, rfl, hA, hB⟩ := exists_split_of_order post hop
  have hwf0 : MapWF State.empty.globalVarReferences := by simp [State.empty, MapWF, mapKeys]
  have hfinal : TraverseDecl State.empty (pre ++ e :: (A ++ B)) =
      TraverseDecl (TraverseDecl (visit (TraverseDecl State.empty pre) e) A) B := by
    rw [TraverseDecl_append, TraverseDecl_cons, TraverseDecl_append]
  have hwf3 : MapWF
      (TraverseDecl (visit (TraverseDecl State.empty pre) e) A).globalVarReferences :=
    TraverseDecl_wf _ _ (visit_wf _ _ (TraverseDecl_wf _ _ hwf0))
  have h3 : mapFind V
      (TraverseDecl (visit (TraverseDecl State.empty pre) e) A).globalVarReferences
        = some [] := by
    rw [TraverseDecl_mapFind_other _ A V (fun x hx =>
      ⟨hpost x (List.mem_append_left _ hx),
        refersTo_eq_false_of_not_declRefExpr V (hA x hx)⟩)]
    exact visit_tracks _ e V he
  have hidx : (TraverseDecl (visit (TraverseDecl State.empty pre) e) A).functionSpan =
      (recordedSpans (pre ++ e :: (A ++ B))).foldl recordSpan [] := by
    have hhead : TraverseDecl (visit (TraverseDecl State.empty pre) e) A =
        TraverseDecl State.empty (pre ++ e :: A) := by
      rw [TraverseDecl_append, TraverseDecl_cons]
    have hsplit : pre ++ e :: (A ++ B) = (pre ++ e :: A) ++ B := by simp
    rw [hhead, TraverseDecl_functionSpan, hsplit, recordedSpans_append (pre ++ e :: A) B,
      recordedSpans_eq_nil hB, List.append_nil]
    rfl
  have hlines : refLines V (pre ++ e :: (A ++ B)) = refLines V B := by
    rw [refLines_append, refLines_cons, refLines_append,
      refLines_eq_nil (fun x hx => (hpre x hx).2),
      @refLines_eq_nil V [e]
        (by simpa using (refersTo_eq_false_of_tracks he).1),
      refLines_eq_nil (fun x hx => refersTo_eq_false_of_not_declRefExpr V (hA x hx))]
    rfl
  rw [hfinal, TraverseDecl_mapFind_fixed _ B V hwf3 (fun x hx =>
    ⟨hB x hx, hpost x (List.mem_append_right _ hx)⟩), h3, hidx, hlines]
  rfl

/-- C2: a stream is processed from the empty state; its recorded function
declarations have pairwise distinct names and pairwise disjoint line spans; `V` is
tracked by exactly one declaration visit, which comes before every reference to
`V`; every function declaration comes before every reference. Then `V` is reported
with the function name `f` if and only if `f` is the one and only function whose
span contains a line at which `V` is referenced. -/
theorem report_iff_sole_owner (events pre post : List Event) (e : Event) (V : Nat)
    (f : CxxString) (hapart : (recordedSpans events).Pairwise SpansApart)
    (hsplit : events = pre ++ e :: post) (he : e.tracks V = true)
    (hpre : ∀ x ∈ pre, x.tracks V = false ∧ x.refersTo V = false)
    (hpost : ∀ x ∈ post, x.tracks V = false)
    (horder : events.Pairwise
      (fun a b => ¬ (a.isDeclRefExpr = true ∧ b.isFunctionDecl = true))) :
    (V, f) ∈ diagCalls (TraverseDecl State.empty events).globalVarReferences ↔
      ∀ g, Owns events V g ↔ g = f := by
  have hwf : MapWF (TraverseDecl State.empty events).globalVarReferences :=
    TraverseDecl_wf _ _ (by simp [State.empty, MapWF, mapKeys])
  rw [mem_diagCalls_iff_mapFind _ hwf]
  subst hsplit
  rw [TraverseDecl_final_set pre post e V he hpre hpost horder, Option.some.injEq,
    eq_singleton_iff_of_nodup (SetWF.nodup (addOwners_wf _ _ _ (by simp [SetWF])))]
  constructor
  · intro h g
    rw [← mem_addOwners_recorded _ V hapart g]
    exact h g
  · intro h g
    rw [mem_addOwners_recorded _ V hapart g]
    exact h g

/-- C2, on scenario 1: `counter` is reported with the name `increment` if and only
if `increment` is its sole owner. -/
theorem report_iff_sole_owner_witness :
    diagCalls (TraverseDecl State.empty counterEvents).globalVarReferences
        = [(7, "increment".toList)] ∧
      ((7, "increment".toList) ∈
          diagCalls (TraverseDecl State.empty counterEvents).globalVarReferences ↔
        ∀ g, Owns counterEvents 7 g ↔ g = "increment".toList) :=
  And.intro (by decide) <| report_iff_sole_owner counterEvents [] (counterEvents.drop 1)
    (.varDecl (sampleGlobal 7 "counter")) 7 "increment".toList
    (by decide) rfl (by decide) (by decide) (by decide) (by decide)


/-! ## Re-visiting a variable declaration -/

theorem mapUpdate_const_eq_self {κ β : Type} [LinearOrder κ] (k : κ) (c : β)
    (m : List (κ × β)) (hwf : MapWF m) (h : mapFind k m = some c) :
    mapUpdate k (fun _ => c) m = m := by
  induction m with
  | nil => simp [mapFind] at h
  | cons p t ih =>
    obtain ⟨k', v⟩ := p
    unfold MapWF mapKeys at hwf
    rw [List.map_cons, List.pairwise_cons] at hwf
    unfold mapUpdate
    split_ifs with h1 h2
    · exfalso
      simp only [mapFind, ne_of_lt h1, if_false] at h
      have hmem : k ∈ mapKeys t := by
        by_contra hn
        rw [(mapFind_eq_none_iff k t).mpr hn] at h
        simp at h
      exact lt_asymm h1 (hwf.1 k hmem)
    · simp only [mapFind, ne_of_gt h2, if_false] at h
      rw [ih hwf.2 h]
    · have hkk : k = k' := le_antisymm (not_lt.mp h2) (not_lt.mp h1)
      subst hkk
      simp only [mapFind, if_true, Option.some.injEq] at h
      rw [h]

/-- C9, as stated, fails: after scenario 1 the set of `counter` is `{increment}`,
and visiting the declaration of `counter` again leaves it empty. -/
theorem VisitVarDecl_clears_recorded_references :
    mapFind 7 (TraverseDecl State.empty counterEvents).globalVarReferences
        = some ["increment".toList] ∧
      mapFind 7 (VisitVarDecl (TraverseDecl State.empty counterEvents)
        (sampleGlobal 7 "counter")).globalVarReferences = some [] := by
  decide

/-- C9, amended: visiting the declaration of a variable that is not in a header
and has global storage maps the variable to the empty set, whether or not it was
tracked; the sets of the other variables and the span index are unchanged; the
visit changes nothing when the variable is already mapped to the empty set, and
so a second visit right after the first changes nothing. -/
theorem VisitVarDecl_resets_referencing_set (st : State) (var : VarDecl)
    (hh : isInHeader var.loc = false) (hg : var.hasGlobalStorage = true) :
    mapFind var.ptr (VisitVarDecl st var).globalVarReferences = some [] ∧
      (∀ W, W ≠ var.ptr →
        mapFind W (VisitVarDecl st var).globalVarReferences =
          mapFind W st.globalVarReferences) ∧
      (VisitVarDecl st var).functionSpan = st.functionSpan ∧
      (MapWF st.globalVarReferences → mapFind var.ptr st.globalVarReferences = some [] →
        VisitVarDecl st var = st) ∧
      VisitVarDecl (VisitVarDecl st var) var = VisitVarDecl st var := by
  have hstep : ∀ s : State, VisitVarDecl s var =
      { s with globalVarReferences := mapUpdate var.ptr (fun _ => []) s.globalVarReferences } := by
    intro s
    simp [VisitVarDecl, hh, hg]
  refine ⟨?_, ?_, ?_, ?_, ?_⟩
  · rw [hstep]
    exact mapFind_mapUpdate_const _ _ _
  · intro W hW
    rw [hstep]
    exact mapFind_mapUpdate_ne _ _ hW
  · rw [hstep]
  · intro hwf hV
    rw [hstep, mapUpdate_const_eq_self _ _ _ hwf hV]
  · rw [hstep, hstep]
    simp only [State.mk.injEq, true_and]
    exact mapUpdate_idem _ _ _ (fun _ => rfl)

/-- C9 amended, at the state scenario 1 ends in, for the declaration of `counter`. -/
theorem VisitVarDecl_resets_referencing_set_witness :
    mapFind (sampleGlobal 7 "counter").ptr
        (VisitVarDecl (TraverseDecl State.empty counterEvents)
          (sampleGlobal 7 "counter")).globalVarReferences = some [] :=
  (VisitVarDecl_resets_referencing_set (TraverseDecl State.empty counterEvents)
    (sampleGlobal 7 "counter") (by decide) (by decide)).1

/-! ## Recording a function span -/

theorem mem_mapUpdate_of_mem {κ β : Type} [LinearOrder κ] {k : κ} (g : Option β → β)
    {m : List (κ × β)} {x : κ × β} (hx : x ∈ m) :
    x ∈ mapUpdate k g m ∨ (x.1 = k ∧ (k, g (some x.2)) ∈ mapUpdate k g m) := by
  induction m with
  | nil => simp at hx
  | cons p t ih =>
    obtain ⟨k', v⟩ := p
    unfold mapUpdate
    split_ifs with h1 h2
    · exact Or.inl (List.mem_cons_of_mem _ hx)
    · rcases List.mem_cons.mp hx with rfl | hx
      · exact Or.inl (by simp)
      · rcases ih hx with h | ⟨hk, h⟩
        · exact Or.inl (List.mem_cons_of_mem _ h)
        · exact Or.inr ⟨hk, List.mem_cons_of_mem _ h⟩
    · have hkk : k = k' := le_antisymm (not_lt.mp h2) (not_lt.mp h1)
      subst hkk
      rcases List.mem_cons.mp hx with rfl | hx
      · exact Or.inr ⟨rfl, by simp⟩
      · exact Or.inl (List.mem_cons_of_mem _ hx)

theorem exists_mem_mapUpdate {κ β : Type} [LinearOrder κ] (k : κ) (g : Option β → β)
    (m : List (κ × β)) :
    ∃ o, (k, g o) ∈ mapUpdate k g m ∧ (o = none ∨ ∃ v, o = some v ∧ (k, v) ∈ m) := by
  induction m with
  | nil => exact ⟨none, by simp [mapUpdate], Or.inl rfl⟩
  | cons p t ih =>
    obtain ⟨k', v⟩ := p
    unfold mapUpdate
    split_ifs with h1 h2
    · exact ⟨none, by simp, Or.inl rfl⟩
    · obtain ⟨o, hmem, ho⟩ := ih
      refine ⟨o, List.mem_cons_of_mem _ hmem, ?_⟩
      rcases ho with rfl | ⟨w, rfl, hw⟩
      · exact Or.inl rfl
      · exact Or.inr ⟨w, rfl, List.mem_cons_of_mem _ hw⟩
    · have hkk : k = k' := le_antisymm (not_lt.mp h2) (not_lt.mp h1)
      subst hkk
      exact ⟨some v, by simp, Or.inr ⟨v, rfl, by simp⟩⟩

theorem mem_mapInsert_of_mem {κ β : Type} [LinearOrder κ] (k : κ) (v : β)
    {m : List (κ × β)} {y : κ × β} (hy : y ∈ m) : y ∈ mapInsert k v m := by
  unfold mapInsert
  rcases mem_mapUpdate_of_mem (k := k) (fun o => o.getD v) hy with h | ⟨hk, h⟩
  · exact h
  · have hy' : y = (k, y.2) := by rw [← hk]
    rw [hy']
    simpa using h

theorem exists_mem_mapInsert {κ β : Type} [LinearOrder κ] (k : κ) (v : β)
    (m : List (κ × β)) : ∃ v', (k, v') ∈ mapInsert k v m := by
  have hk : k ∈ mapKeys (mapInsert k v m) := by
    unfold mapInsert
    rw [mem_mapKeys_mapUpdate]
    exact Or.inl rfl
  unfold mapKeys at hk
  obtain ⟨⟨k0, v0⟩, hp, hpk⟩ := List.mem_map.mp hk
  simp only at hpk
  subst hpk
  exact ⟨v0, hp⟩

theorem mem_mapInsert_new {κ β : Type} [LinearOrder κ] (k : κ) (v : β)
    (m : List (κ × β)) (hk : k ∉ mapKeys m) : (k, v) ∈ mapInsert k v m := by
  unfold mapInsert
  rw [mem_mapUpdate_of_not_mem_keys _ _ _ hk]
  exact Or.inl rfl

/-- C10, as stated, fails: with `f` recorded at lines 1 to 1, recording a second
`f` at lines 1 to 3 does not store the interval `(1, 3)`; the interval stored
under `f` for start line 1 stays `(1, 1)`. -/
theorem VisitFunctionDecl_keeps_interval_of_start_line :
    ¬ Stored (VisitFunctionDecl (VisitFunctionDecl State.empty (sampleFunction "f" 1 1))
        (sampleFunction "f" 1 3)).functionSpan "f".toList 1 3 ∧
      (VisitFunctionDecl (VisitFunctionDecl State.empty (sampleFunction "f" 1 1))
        (sampleFunction "f" 1 3)).functionSpan = [("f".toList, [(1, 1)])] := by
  decide

/-- C10, amended: after `VisitFunctionDecl` handles a function declaration that is
not in a header and has valid ends, some interval with the declaration's start
line is stored under its name, and it is the declaration's own interval
`(start, end)` when no interval with that start line was stored under the name
before; every interval stored before, under any name, is still stored; the
registry is unchanged. -/
theorem VisitFunctionDecl_accumulates_intervals (st : State) (d : FunctionDecl)
    (hh : isInHeader d.loc = false) (hb : d.beginLoc.isValid = true)
    (he : d.endLoc.isValid = true) :
    ((∀ e0, ¬ Stored st.functionSpan d.nameAsString d.beginLoc.spellingLineNumber e0) →
        Stored (VisitFunctionDecl st d).functionSpan d.nameAsString
          d.beginLoc.spellingLineNumber d.endLoc.spellingLineNumber) ∧
      (∃ e0, Stored (VisitFunctionDecl st d).functionSpan d.nameAsString
        d.beginLoc.spellingLineNumber e0) ∧
      (∀ n s e, Stored st.functionSpan n s e →
        Stored (VisitFunctionDecl st d).functionSpan n s e) ∧
      (VisitFunctionDecl st d).globalVarReferences = st.globalVarReferences := by
  have hstep : VisitFunctionDecl st d =
      ⟨recordSpan st.functionSpan
          (d.nameAsString, d.beginLoc.spellingLineNumber, d.endLoc.spellingLineNumber),
        st.globalVarReferences⟩ := by
    simp [VisitFunctionDecl, hh, hb, he, recordSpan]
  rw [hstep]
  simp only []
  obtain ⟨o, hmem, ho⟩ := exists_mem_mapUpdate d.nameAsString
    (fun o => mapInsert d.beginLoc.spellingLineNumber d.endLoc.spellingLineNumber (o.getD []))
    st.functionSpan
  refine ⟨?_, ?_, ?_, trivial⟩
  · intro hfresh
    refine ⟨_, hmem, rfl, ?_⟩
    apply mem_mapInsert_new
    rcases ho with rfl | ⟨inner, rfl, hinner⟩
    · simp [mapKeys]
    · intro hk
      unfold mapKeys at hk
      obtain ⟨⟨s0, e0⟩, hp, hpk⟩ := List.mem_map.mp hk
      simp only [Option.getD_some] at hp hpk
      subst hpk
      exact hfresh e0 ⟨(d.nameAsString, inner), hinner, rfl, hp⟩
  · obtain ⟨e0, he0⟩ := exists_mem_mapInsert d.beginLoc.spellingLineNumber
      d.endLoc.spellingLineNumber (o.getD [])
    exact ⟨e0, _, hmem, rfl, he0⟩
  · rintro n s e ⟨p, hp, hpn, hse⟩
    rcases mem_mapUpdate_of_mem (k := d.nameAsString)
      (fun o => mapInsert d.beginLoc.spellingLineNumber d.endLoc.spellingLineNumber (o.getD []))
      hp with h | ⟨hk, h⟩
    · exact ⟨p, h, hpn, hse⟩
    · refine ⟨_, h, by rw [← hk, hpn], ?_⟩
      exact mem_mapInsert_of_mem _ _ hse

/-- C10 amended, at the span index holding `increment` at lines 3 to 5, for the
declaration of `reset` at lines 7 to 9: the new interval is stored and the old one
is kept. -/
theorem VisitFunctionDecl_accumulates_intervals_witness :
    Stored (VisitFunctionDecl ⟨[("increment".toList, [(3, 5)])], []⟩
        (sampleFunction "reset" 7 9)).functionSpan
        (sampleFunction "reset" 7 9).nameAsString 7 9 ∧
      Stored (VisitFunctionDecl ⟨[("increment".toList, [(3, 5)])], []⟩
        (sampleFunction "reset" 7 9)).functionSpan "increment".toList 3 5 :=
  ⟨(VisitFunctionDecl_accumulates_intervals ⟨[("increment".toList, [(3, 5)])], []⟩
      (sampleFunction "reset" 7 9) (by decide) (by decide) (by decide)).1
      (by
        rintro e0 ⟨p, hp, hn, -⟩
        rw [List.mem_singleton] at hp
        subst hp
        exact absurd hn (by decide)),
    (VisitFunctionDecl_accumulates_intervals ⟨[("increment".toList, [(3, 5)])], []⟩
      (sampleFunction "reset" 7 9) (by decide) (by decide) (by decide)).2.2.1
      "increment".toList 3 5 (by decide)⟩


/-! ## References with a null referenced declaration -/

theorem setInsert_comm {α : Type} [LinearOrder α] (x y : α) (s : List α) :
    setInsert x (setInsert y s) = setInsert y (setInsert x s) := by
  rcases lt_trichotomy x y with hxy | hxy | hxy
  · induction s with
    | nil => simp [setInsert, hxy, lt_asymm hxy]
    | cons z t ih =>
      rcases lt_trichotomy x z with hxz | hxz | hxz <;>
        rcases lt_trichotomy y z with hyz | hyz | hyz
      · simp [setInsert, hxy, lt_asymm hxy, hxz, lt_asymm hxz, hyz, lt_asymm hyz]
      · subst hyz
        simp [setInsert, hxy, lt_asymm hxy]
      · simp [setInsert, hxy, lt_asymm hxy, hxz, lt_asymm hxz, hyz, lt_asymm hyz]
      · subst hxz
        exact absurd (lt_trans hxy hyz) (lt_irrefl _)
      · subst hxz
        exact absurd (hyz ▸ hxy) (lt_irrefl _)
      · subst hxz
        simp [setInsert, hxy, lt_asymm hxy]
      · exact absurd (lt_trans (lt_trans hxy hyz) hxz) (lt_irrefl _)
      · subst hyz
        exact absurd (lt_trans hxy hxz) (lt_irrefl _)
      · simp [setInsert, hxz, lt_asymm hxz, hyz, lt_asymm hyz, ih]
  · rw [hxy]
  · induction s with
    | nil => simp [setInsert, hxy, lt_asymm hxy]
    | cons z t ih =>
      rcases lt_trichotomy x z with hxz | hxz | hxz <;>
        rcases lt_trichotomy y z with hyz | hyz | hyz
      · simp [setInsert, hxy, lt_asymm hxy, hxz, lt_asymm hxz, hyz, lt_asymm hyz]
      · subst hyz
        exact absurd (lt_trans hxy hxz) (lt_irrefl _)
      · exact absurd (lt_trans (lt_trans hxy hxz) hyz) (lt_irrefl _)
      · subst hxz
        simp [setInsert, hxy, lt_asymm hxy]
      · subst hxz
        exact absurd (hyz ▸ hxy) (lt_irrefl _)
      · subst hxz
        exact absurd (lt_trans hxy hyz) (lt_irrefl _)
      · simp [setInsert, hxy, lt_asymm hxy, hxz, lt_asymm hxz, hyz, lt_asymm hyz]
      · subst hyz
        simp [setInsert, hxy, lt_asymm hxy]
      · simp [setInsert, hxz, lt_asymm hxz, hyz, lt_asymm hyz, ih]


theorem mapUpdate_comm_of_lt {κ β : Type} [LinearOrder κ] {x y : κ} (g1 g2 : Option β → β)
    (m : List (κ × β)) (hxy : x < y) :
    mapUpdate x g1 (mapUpdate y g2 m) = mapUpdate y g2 (mapUpdate x g1 m) := by
  induction m with
  | nil => simp [mapUpdate, hxy, lt_asymm hxy]
  | cons p t ih =>
    obtain ⟨z, v⟩ := p
    rcases lt_trichotomy x z with hxz | hxz | hxz <;>
      rcases lt_trichotomy y z with hyz | hyz | hyz
    · simp [mapUpdate, hxy, lt_asymm hxy, hxz, lt_asymm hxz, hyz, lt_asymm hyz]
    · subst hyz
      simp [mapUpdate, hxy, lt_asymm hxy]
    · simp [mapUpdate, hxy, lt_asymm hxy, hxz, lt_asymm hxz, hyz, lt_asymm hyz]
    · subst hxz
      exact absurd (lt_trans hxy hyz) (lt_irrefl _)
    · subst hxz
      exact absurd (hyz ▸ hxy) (lt_irrefl _)
    · subst hxz
      simp [mapUpdate, hxy, lt_asymm hxy]
    · exact absurd (lt_trans (lt_trans hxy hyz) hxz) (lt_irrefl _)
    · subst hyz
      exact absurd (lt_trans hxy hxz) (lt_irrefl _)
    · simp [mapUpdate, hxz, lt_asymm hxz, hyz, lt_asymm hyz, ih]

theorem mapUpdate_comm {κ β : Type} [LinearOrder κ] {x y : κ} (g1 g2 : Option β → β)
    (m : List (κ × β)) (hxy : x ≠ y) :
    mapUpdate x g1 (mapUpdate y g2 m) = mapUpdate y g2 (mapUpdate x g1 m) := by
  rcases lt_or_gt_of_ne hxy with h | h
  · exact mapUpdate_comm_of_lt g1 g2 m h
  · exact (mapUpdate_comm_of_lt g2 g1 m h).symm

theorem mapUpdate_fuse {κ β : Type} [LinearOrder κ] (k : κ) (g1 g2 : Option β → β)
    (m : List (κ × β)) :
    mapUpdate k g1 (mapUpdate k g2 m) = mapUpdate k (fun o => g1 (some (g2 o))) m := by
  induction m with
  | nil => simp [mapUpdate]
  | cons p t ih =>
    obtain ⟨z, v⟩ := p
    by_cases h1 : k < z
    · simp [mapUpdate, h1]
    · by_cases h2 : z < k
      · simp [mapUpdate, h1, h2, ih]
      · simp [mapUpdate, h1, h2]

theorem mapInsert_comm {κ β : Type} [LinearOrder κ] (k1 k2 : κ) (v1 v2 : β)
    (m : List (κ × β)) (h : k1 = k2 → v1 = v2) :
    mapInsert k1 v1 (mapInsert k2 v2 m) = mapInsert k2 v2 (mapInsert k1 v1 m) := by
  by_cases hk : k1 = k2
  · subst hk
    rw [h rfl]
  · exact mapUpdate_comm _ _ m hk

theorem recordSpan_comm (idx : FunctionSpan) (a b : CxxString × Nat × Nat)
    (h : SpansAgree a b) :
    recordSpan (recordSpan idx a) b = recordSpan (recordSpan idx b) a := by
  unfold recordSpan
  by_cases hn : a.1 = b.1
  · rw [← hn, mapUpdate_fuse, mapUpdate_fuse]
    congr 1
    funext o
    simp only [Option.getD_some]
    exact mapInsert_comm _ _ _ _ _ (fun hs => (h hn hs.symm).symm)
  · exact (mapUpdate_comm _ _ idx hn).symm

theorem track_comm (reg : GlobalVarReferences) (x y : Nat) :
    mapUpdate y (fun _ => ([] : List CxxString)) (mapUpdate x (fun _ => []) reg) =
      mapUpdate x (fun _ => []) (mapUpdate y (fun _ => []) reg) := by
  by_cases h : x = y
  · rw [h]
  · exact (mapUpdate_comm _ _ reg h).symm

theorem VisitDeclRefExpr_functionSpan (st : State) (d : DeclRefExpr) :
    (VisitDeclRefExpr st d).functionSpan = st.functionSpan := by
  exact visit_functionSpan_fixed st (.declRefExpr d) rfl

theorem mapContains_mapUpdate {κ β : Type} [LinearOrder κ] (k j : κ) (g : Option β → β)
    (m : List (κ × β)) :
    mapContains j (mapUpdate k g m) = (decide (j = k) || mapContains j m) := by
  by_cases h : j = k
  · subst h
    have hc : mapContains j (mapUpdate j g m) = true := by
      rw [mapContains_iff, mem_mapKeys_mapUpdate]
      exact Or.inl rfl
    simp [hc]
  · unfold mapContains
    rw [mapFind_mapUpdate_ne _ _ h]
    simp [h]


/-! ## Order of processing -/

theorem VisitDeclRefExpr_eq_refStep (st : State) (d : DeclRefExpr) :
    VisitDeclRefExpr st d = ⟨st.functionSpan, refStep st.functionSpan d st.globalVarReferences⟩ := by
  unfold VisitDeclRefExpr refStep
  cases d.var with
  | none => rfl
  | some var =>
    cases findOwner d.spellingLineNumber st.functionSpan with
    | none =>
      simp only []
      split_ifs <;> rfl
    | some n =>
      simp only []
      split_ifs <;> rfl

theorem addOwner_comm (reg : GlobalVarReferences) (v1 v2 : Nat) (f1 f2 : CxxString) :
    mapUpdate v2 (fun o => setInsert f2 (o.getD [])) (mapUpdate v1 (fun o => setInsert f1 (o.getD [])) reg) =
      mapUpdate v1 (fun o => setInsert f1 (o.getD []))
        (mapUpdate v2 (fun o => setInsert f2 (o.getD [])) reg) := by
  by_cases h : v1 = v2
  · subst h
    rw [mapUpdate_fuse, mapUpdate_fuse]
    congr 1
    funext o
    simp only [Option.getD_some]
    exact setInsert_comm _ _ _
  · exact (mapUpdate_comm _ _ reg h).symm

theorem refStep_comm (idx : FunctionSpan) (d1 d2 : DeclRefExpr) (reg : GlobalVarReferences) :
    refStep idx d2 (refStep idx d1 reg) = refStep idx d1 (refStep idx d2 reg) := by
  unfold refStep
  cases h1 : d1.var with
  | none => simp
  | some v1 =>
    cases h2 : d2.var with
    | none => simp
    | some v2 =>
      cases o1 : findOwner d1.spellingLineNumber idx with
      | none => simp
      | some f1 =>
        cases o2 : findOwner d2.spellingLineNumber idx with
        | none => simp
        | some f2 =>
          simp only []
          by_cases c1 : mapContains v1 reg = true <;> by_cases c2 : mapContains v2 reg = true
          · simp [c1, c2, mapContains_mapUpdate, addOwner_comm]
          · have hne : v2 ≠ v1 := by
              intro h
              rw [h] at c2
              exact c2 c1
            simp [c1, c2, mapContains_mapUpdate, hne]
          · have hne : v1 ≠ v2 := by
              intro h
              rw [h] at c1
              exact c1 c2
            simp [c1, c2, mapContains_mapUpdate, hne]
          · simp [c1, c2]

theorem VisitDeclRefExpr_comm (st : State) (d1 d2 : DeclRefExpr) :
    VisitDeclRefExpr (VisitDeclRefExpr st d1) d2 = VisitDeclRefExpr (VisitDeclRefExpr st d2) d1 := by
  rw [VisitDeclRefExpr_eq_refStep (VisitDeclRefExpr st d1), VisitDeclRefExpr_eq_refStep st d1,
    VisitDeclRefExpr_eq_refStep (VisitDeclRefExpr st d2), VisitDeclRefExpr_eq_refStep st d2]
  simp only [refStep_comm]

theorem trackedPtrs_cons (e : Event) (t : List Event) :
    trackedPtrs (e :: t) = trackedPtrs [e] ++ trackedPtrs t := by
  unfold trackedPtrs
  rw [← List.filterMap_append]
  rfl

theorem visit_registry_of_decl (st : State) (e : Event) (he : e.isDeclRefExpr = false) :
    (visit st e).globalVarReferences =
      (trackedPtrs [e]).foldl (fun reg p => mapUpdate p (fun _ => []) reg)
        st.globalVarReferences := by
  cases e with
  | declRefExpr d => simp [Event.isDeclRefExpr] at he
  | functionDecl d =>
    simp only [visit, VisitFunctionDecl, trackedPtrs, List.filterMap_cons, List.filterMap_nil,
      List.foldl_nil]
    split_ifs <;> rfl
  | varDecl var =>
    simp only [visit, VisitVarDecl, trackedPtrs, List.filterMap_cons, List.filterMap_nil]
    by_cases hh : isInHeader var.loc = true
    · simp [hh]
    · by_cases hg : var.hasGlobalStorage = true
      · simp [hh, hg]
      · simp [hh, hg]

theorem TraverseDecl_decls (st : State) (D : List Event)
    (hD : ∀ x ∈ D, x.isDeclRefExpr = false) :
    TraverseDecl st D =
      ⟨(recordedSpans D).foldl recordSpan st.functionSpan,
        (trackedPtrs D).foldl (fun reg p => mapUpdate p (fun _ => []) reg)
          st.globalVarReferences⟩ := by
  induction D generalizing st with
  | nil => rfl
  | cons e t ih =>
    rw [TraverseDecl_cons, ih (visit st e) (fun x hx => hD x (List.mem_cons_of_mem _ hx)),
      visit_functionSpan, visit_registry_of_decl st e (hD e (List.mem_cons_self _ _)),
      recordedSpans_cons e t, trackedPtrs_cons e t, List.foldl_append, List.foldl_append]

theorem declsFirst_split (events : List Event) (h : DeclsFirst events) :
    events = events.filter (fun e => !e.isDeclRefExpr) ++ events.filter (fun e => e.isDeclRefExpr) := by
  induction events with
  | nil => rfl
  | cons e t ih =>
    unfold DeclsFirst at h ih
    rw [List.pairwise_cons] at h
    by_cases he : e.isDeclRefExpr = true
    · have hall : ∀ x ∈ t, x.isDeclRefExpr = true := by
        intro x hx
        have := h.1 x hx
        simpa [he] using this
      have h1 : (e :: t).filter (fun e => !e.isDeclRefExpr) = [] := by
        rw [List.filter_eq_nil_iff]
        intro x hx
        rcases List.mem_cons.mp hx with rfl | hx
        · simp [he]
        · simp [hall x hx]
      have h2 : (e :: t).filter (fun e => e.isDeclRefExpr) = e :: t := by
        rw [List.filter_eq_self]
        intro x hx
        rcases List.mem_cons.mp hx with rfl | hx
        · exact he
        · exact hall x hx
      rw [h1, h2]
      rfl
    · have he' : e.isDeclRefExpr = false := by simpa using he
      have hrec := ih h.2
      simp only [List.filter_cons, he', Bool.not_false, if_true, Bool.false_eq_true, if_false,
        List.cons_append]
      rw [← hrec]


/-- C12, as stated, fails: the same three events give `counter` the set
`{increment}` when the declaration of `increment` is processed before the
reference at line 4, and the empty set when it is processed after it. -/
theorem reference_before_function_is_dropped :
    List.Perm
        [Event.varDecl (sampleGlobal 7 "counter"),
          .functionDecl (sampleFunction "increment" 3 5), .declRefExpr (sampleRef 7 4)]
        [Event.varDecl (sampleGlobal 7 "counter"),
          .declRefExpr (sampleRef 7 4), .functionDecl (sampleFunction "increment" 3 5)] ∧
      mapFind 7 (TraverseDecl State.empty
        [Event.varDecl (sampleGlobal 7 "counter"),
          .functionDecl (sampleFunction "increment" 3 5),
          .declRefExpr (sampleRef 7 4)]).globalVarReferences = some ["increment".toList] ∧
      mapFind 7 (TraverseDecl State.empty
        [Event.varDecl (sampleGlobal 7 "counter"),
          .declRefExpr (sampleRef 7 4),
          .functionDecl (sampleFunction "increment" 3 5)]).globalVarReferences = some [] :=
  ⟨List.Perm.cons _ (List.Perm.swap _ _ _), by decide, by decide⟩

/-- C12, amended: take two orders of the same events, in each of which every
declaration visit (function or variable) comes before every reference visit, the
recorded function declarations being such that two with the same name and start
line have the same end line. Processed from the same state, both orders end in
the same state, span index and referencing sets alike, and so give the same
report. -/
theorem decls_first_order_independent (st : State) (deref : Nat → VarDecl)
    (events₁ events₂ : List Event) (hperm : events₁.Perm events₂)
    (h1 : DeclsFirst events₁) (h2 : DeclsFirst events₂)
    (hagree : ∀ a ∈ recordedSpans events₁, ∀ b ∈ recordedSpans events₁, SpansAgree a b) :
    TraverseDecl st events₁ = TraverseDecl st events₂ ∧
      showGlobalVariables deref (TraverseDecl st events₁).globalVarReferences =
        showGlobalVariables deref (TraverseDecl st events₂).globalVarReferences := by
  have hD : ∀ evs : List Event, ∀ x ∈ evs.filter (fun e => !e.isDeclRefExpr),
      x.isDeclRefExpr = false := by
    intro evs x hx
    simpa using (List.mem_filter.mp hx).2
  have hR : ∀ evs : List Event, ∀ x ∈ evs.filter (fun e => e.isDeclRefExpr),
      x.isFunctionDecl = false := by
    intro evs x hx
    have := (List.mem_filter.mp hx).2
    cases x <;> simp_all [Event.isDeclRefExpr, Event.isFunctionDecl]
  have hpD := hperm.filter (fun e => !e.isDeclRefExpr)
  have hpR := hperm.filter (fun e => e.isDeclRefExpr)
  have hrecs : recordedSpans (events₁.filter (fun e => !e.isDeclRefExpr)) =
      recordedSpans events₁ := by
    conv_rhs => rw [declsFirst_split events₁ h1]
    rw [recordedSpans_append, recordedSpans_eq_nil (hR events₁), List.append_nil]
  have hidx : ∀ init, (recordedSpans (events₁.filter (fun e => !e.isDeclRefExpr))).foldl
        recordSpan init =
      (recordedSpans (events₂.filter (fun e => !e.isDeclRefExpr))).foldl recordSpan init := by
    intro init
    apply List.Perm.foldl_eq' (hpD.filterMap _)
    intro a ha b hb z
    have ha' : a ∈ recordedSpans (events₁.filter (fun e => !e.isDeclRefExpr)) := ha
    have hb' : b ∈ recordedSpans (events₁.filter (fun e => !e.isDeclRefExpr)) := hb
    rw [hrecs] at ha' hb'
    exact recordSpan_comm z a b (hagree a ha' b hb')
  have hreg : ∀ init, (trackedPtrs (events₁.filter (fun e => !e.isDeclRefExpr))).foldl
        (fun reg p => mapUpdate p (fun _ => ([] : List CxxString)) reg) init =
      (trackedPtrs (events₂.filter (fun e => !e.isDeclRefExpr))).foldl
        (fun reg p => mapUpdate p (fun _ => []) reg) init := by
    intro init
    apply List.Perm.foldl_eq' (hpD.filterMap _)
    intro a _ b _ z
    exact track_comm z a b
  have hrefs : ∀ init, TraverseDecl init (events₁.filter (fun e => e.isDeclRefExpr)) =
      TraverseDecl init (events₂.filter (fun e => e.isDeclRefExpr)) := by
    intro init
    unfold TraverseDecl
    apply List.Perm.foldl_eq' hpR
    intro a ha b hb z
    have hra := (List.mem_filter.mp ha).2
    have hrb := (List.mem_filter.mp hb).2
    cases a with
    | functionDecl d => simp [Event.isDeclRefExpr] at hra
    | varDecl var => simp [Event.isDeclRefExpr] at hra
    | declRefExpr d1 =>
      cases b with
      | functionDecl d => simp [Event.isDeclRefExpr] at hrb
      | varDecl var => simp [Event.isDeclRefExpr] at hrb
      | declRefExpr d2 => exact VisitDeclRefExpr_comm z d1 d2
  have hstate : TraverseDecl st events₁ = TraverseDecl st events₂ := by
    rw [declsFirst_split events₁ h1, declsFirst_split events₂ h2, TraverseDecl_append,
      TraverseDecl_append, TraverseDecl_decls st _ (hD events₁),
      TraverseDecl_decls st _ (hD events₂), hidx, hreg, hrefs]
  exact ⟨hstate, by rw [hstate]⟩

/-- C12 amended, on scenario 1 and on the order of it that visits `reset` first. -/
theorem decls_first_order_independent_witness :
    TraverseDecl State.empty counterEvents =
      TraverseDecl State.empty
        [.functionDecl (sampleFunction "reset" 7 9), .varDecl (sampleGlobal 7 "counter"),
          .functionDecl (sampleFunction "increment" 3 5), .declRefExpr (sampleRef 7 4)] :=
  (decls_first_order_independent State.empty (fun p => sampleGlobal p "counter") counterEvents
    [.functionDecl (sampleFunction "reset" 7 9), .varDecl (sampleGlobal 7 "counter"),
      .functionDecl (sampleFunction "increment" 3 5), .declRefExpr (sampleRef 7 4)]
    (List.Perm.trans
      (List.Perm.cons _ (List.Perm.swap _ _ _))
      (List.Perm.swap _ _ _))
    (by decide) (by decide) (by decide)).1


/-! ## Several translation units in one process -/

/-- C13: the registry is a file-scope object that no run clears. The second unit
analysed alone, from an empty registry, gives no warning; analysed after the unit
of scenario 1 it finds `counter` still in the registry and emits the warning
for `counter` again. -/
theorem registry_leaks_across_translation_units :
    (HandleTranslationUnit sampleDeref [] secondUnitEvents).2 = [] ∧
      (HandleTranslationUnit sampleDeref [] counterEvents).1 = [(7, ["increment".toList])] ∧
      (HandleTranslationUnit sampleDeref
        (HandleTranslationUnit sampleDeref [] counterEvents).1 secondUnitEvents).2 =
        [displayDiag (mainFileLoc 1) "counter".toList "increment".toList] := by
  refine ⟨by decide, by decide, ?_⟩
  rfl

/-! ## Content of a report -/

theorem mem_mapKeys_of_mem_diagCalls {reg : GlobalVarReferences} {c : Nat × CxxString}
    (h : c ∈ diagCalls reg) : c.1 ∈ mapKeys reg := by
  obtain ⟨V, f⟩ := c
  have := (mem_diagCalls reg V f).mp h
  unfold mapKeys
  exact List.mem_map.mpr ⟨(V, [f]), this, rfl⟩

theorem diagCalls_filter_eq (reg : GlobalVarReferences) (hwf : MapWF reg) (V : Nat)
    (f : CxxString) (h : mapFind V reg = some [f]) :
    (diagCalls reg).filter (fun c => decide (c.1 = V)) = [(V, f)] := by
  induction reg with
  | nil => simp [mapFind] at h
  | cons p t ih =>
    obtain ⟨k, S⟩ := p
    unfold MapWF mapKeys at hwf
    rw [List.map_cons, List.pairwise_cons] at hwf
    by_cases hk : V = k
    · subst hk
      simp only [mapFind, if_true, Option.some.injEq] at h
      subst h
      have htail : (diagCalls t).filter (fun c => decide (c.1 = V)) = [] := by
        rw [List.filter_eq_nil_iff]
        intro c hc
        have hlt := hwf.1 c.1 (mem_mapKeys_of_mem_diagCalls hc)
        simp [ne_of_gt hlt]
      simp [diagCalls, htail]
    · simp only [mapFind, hk, if_false] at h
      have hrec := ih hwf.2 h
      unfold diagCalls
      split_ifs
      · exact hrec
      · rw [List.filter_append, hrec]
        have hhead : (S.map (fun funcName => (k, funcName))).filter
            (fun c => decide (c.1 = V)) = [] := by
          rw [List.filter_eq_nil_iff]
          intro c hc
          obtain ⟨g, -, rfl⟩ := List.mem_map.mp hc
          simp [Ne.symm hk]
        rw [hhead]
        rfl

/-- C14: for every registry and every variable `V` mapped to the one-element set
`{f}`, the calls of `displayDiag` that `showGlobalVariables` makes for `V` are
exactly one, with the location of `V`, the name of `V` as first argument and `f`
as second, under the format
`Bad Implementation of Global Variable '%0' Found in '%1'`; and that diagnostic
is among those the method emits. -/
theorem showGlobalVariables_reports_sole_owner_once (deref : Nat → VarDecl)
    (reg : GlobalVarReferences) (hwf : MapWF reg) (V : Nat) (f : CxxString)
    (h : mapFind V reg = some [f]) :
    ((diagCalls reg).filter (fun c => decide (c.1 = V))).map
          (fun c => displayDiag (deref c.1).loc (deref c.1).nameAsString c.2) =
        [⟨(deref V).loc, "Bad Implementation of Global Variable '%0' Found in '%1'",
          [(deref V).nameAsString, f]⟩] ∧
      (⟨(deref V).loc, "Bad Implementation of Global Variable '%0' Found in '%1'",
          [(deref V).nameAsString, f]⟩ : Diagnostic) ∈ showGlobalVariables deref reg := by
  constructor
  · rw [diagCalls_filter_eq reg hwf V f h]
    rfl
  · unfold showGlobalVariables
    exact List.mem_map.mpr ⟨(V, f), (mem_diagCalls_iff_mapFind reg hwf V f).mpr h, rfl⟩

/-- C14, at the registry scenario 1 ends in, for `counter`. -/
theorem showGlobalVariables_reports_sole_owner_once_witness :
    ((diagCalls [(7, ["increment".toList])]).filter (fun c => decide (c.1 = 7))).map
          (fun c => displayDiag (sampleDeref c.1).loc (sampleDeref c.1).nameAsString c.2) =
        [⟨(sampleDeref 7).loc, "Bad Implementation of Global Variable '%0' Found in '%1'",
          [(sampleDeref 7).nameAsString, "increment".toList]⟩] ∧
      (⟨(sampleDeref 7).loc, "Bad Implementation of Global Variable '%0' Found in '%1'",
          [(sampleDeref 7).nameAsString, "increment".toList]⟩ : Diagnostic) ∈
        showGlobalVariables sampleDeref [(7, ["increment".toList])] :=
  showGlobalVariables_reports_sole_owner_once sampleDeref [(7, ["increment".toList])]
    (by decide) 7 "increment".toList (by decide)

/-! ## Function declarations that are passed over -/

/-- C16: a function declaration in a system header, or in a file whose name ends
in `.h` or `.hpp`, or whose begin or end location is invalid, leaves the span
index and the registry as they were, and the traversal goes on with the nodes
that follow from that same state. -/
theorem VisitFunctionDecl_skips_header_or_invalid (st : State) (d : FunctionDecl)
    (h : (d.loc.isInSystemHeader = true ∨ [ '.', 'h' ].isSuffixOf d.loc.fileName = true ∨
        [ '.', 'h', 'p', 'p' ].isSuffixOf d.loc.fileName = true) ∨
      d.beginLoc.isValid = false ∨ d.endLoc.isValid = false) :
    VisitFunctionDecl st d = st ∧
      ∀ rest, TraverseDecl st (.functionDecl d :: rest) = TraverseDecl st rest := by
  have hst : VisitFunctionDecl st d = st := by
    unfold VisitFunctionDecl
    rcases h with (h | h | h) | h | h
    · simp [isInHeader, h]
    · simp [isInHeader, h]
    · simp [isInHeader, h]
    · split_ifs <;> simp_all
    · split_ifs <;> simp_all
  refine ⟨hst, fun rest => ?_⟩
  rw [TraverseDecl_cons]
  simp only [visit, hst]

/-- C16, at the state scenario 1 ends in, for a function declared in `utils.hpp`. -/
theorem VisitFunctionDecl_skips_header_or_invalid_witness :
    VisitFunctionDecl (TraverseDecl State.empty counterEvents)
        ⟨⟨true, false, "utils.hpp".toList, 2⟩, mainFileLoc 2, mainFileLoc 6, "helper".toList⟩ =
      TraverseDecl State.empty counterEvents :=
  (VisitFunctionDecl_skips_header_or_invalid (TraverseDecl State.empty counterEvents)
    ⟨⟨true, false, "utils.hpp".toList, 2⟩, mainFileLoc 2, mainFileLoc 6, "helper".toList⟩
    (Or.inl (Or.inr (Or.inr (by decide))))).1


/-! ## Which owner the loop picks -/

theorem mem_mapUpdate_elim {κ β : Type} [LinearOrder κ] {k : κ} {g : Option β → β}
    {m : List (κ × β)} {x : κ × β} (hx : x ∈ mapUpdate k g m) :
    x ∈ m ∨ x = (k, g none) ∨ ∃ v, (k, v) ∈ m ∧ x = (k, g (some v)) := by
  induction m with
  | nil =>
    simp only [mapUpdate, List.mem_singleton] at hx
    exact Or.inr (Or.inl hx)
  | cons p t ih =>
    obtain ⟨k', v⟩ := p
    unfold mapUpdate at hx
    split_ifs at hx with h1 h2
    · rcases List.mem_cons.mp hx with rfl | hx
      · exact Or.inr (Or.inl rfl)
      · exact Or.inl hx
    · rcases List.mem_cons.mp hx with rfl | hx
      · exact Or.inl (by simp)
      · rcases ih hx with h | h | ⟨w, hw, hxw⟩
        · exact Or.inl (List.mem_cons_of_mem _ h)
        · exact Or.inr (Or.inl h)
        · exact Or.inr (Or.inr ⟨w, List.mem_cons_of_mem _ hw, hxw⟩)
    · have hkk : k = k' := le_antisymm (not_lt.mp h2) (not_lt.mp h1)
      subst hkk
      rcases List.mem_cons.mp hx with rfl | hx
      · exact Or.inr (Or.inr ⟨v, by simp, rfl⟩)
      · exact Or.inl (List.mem_cons_of_mem _ hx)

theorem recordSpan_wf (idx : FunctionSpan) (r : CxxString × Nat × Nat) (hwf : MapWF idx)
    (hinner : ∀ p ∈ idx, MapWF p.2) :
    MapWF (recordSpan idx r) ∧ ∀ p ∈ recordSpan idx r, MapWF p.2 := by
  refine ⟨mapUpdate_wf _ _ _ hwf, ?_⟩
  intro p hp
  unfold recordSpan at hp
  rcases mem_mapUpdate_elim hp with h | h | ⟨v, hv, h⟩
  · exact hinner p h
  · rw [h]
    exact mapUpdate_wf _ _ _ (by simp [MapWF, mapKeys])
  · rw [h]
    exact mapUpdate_wf _ _ _ (hinner _ hv)

theorem foldl_recordSpan_wf (recs : List (CxxString × Nat × Nat)) (idx : FunctionSpan)
    (hwf : MapWF idx) (hinner : ∀ p ∈ idx, MapWF p.2) :
    MapWF (recs.foldl recordSpan idx) ∧ ∀ p ∈ recs.foldl recordSpan idx, MapWF p.2 := by
  induction recs generalizing idx with
  | nil => exact ⟨hwf, hinner⟩
  | cons r t ih =>
    exact ih (recordSpan idx r) (recordSpan_wf idx r hwf hinner).1
      (recordSpan_wf idx r hwf hinner).2

theorem firstContains_iff (idx : FunctionSpan) (hinner : ∀ p ∈ idx, MapWF p.2)
    (n : CxxString) (L : Nat) :
    FirstContains idx n L ↔ ∃ s e rest, (n, (s, e) :: rest) ∈ idx ∧ s ≤ L ∧ L ≤ e := by
  constructor
  · rintro ⟨p, hp, hn, q, hq, hmin, hs, he⟩
    obtain ⟨name, spans⟩ := p
    simp only at hn hq hmin
    subst hn
    cases spans with
    | nil => simp at hq
    | cons q0 rest =>
      have hw := hinner _ hp
      unfold MapWF mapKeys at hw
      simp only [List.map_cons, List.pairwise_cons] at hw
      have hq0 : q = q0 := by
        rcases List.mem_cons.mp hq with h | h
        · exact h
        · have h1 : q0.1 < q.1 := hw.1 q.1 (List.mem_map.mpr ⟨q, h, rfl⟩)
          have h2 : q.1 ≤ q0.1 := hmin q0 (by simp)
          omega
      subst hq0
      exact ⟨q.1, q.2, rest, hp, hs, he⟩
  · rintro ⟨s, e, rest, hp, hs, he⟩
    refine ⟨_, hp, rfl, (s, e), by simp, ?_, hs, he⟩
    intro r hr
    have hw := hinner _ hp
    unfold MapWF mapKeys at hw
    simp only [List.map_cons, List.pairwise_cons] at hw
    rcases List.mem_cons.mp hr with h | h
    · rw [h]
    · exact le_of_lt (hw.1 r.1 (List.mem_map.mpr ⟨r, h, rfl⟩))

theorem findOwner_le_of_container {L : Nat} {idx : FunctionSpan} (hwf : MapWF idx)
    {n : CxxString} (h : findOwner L idx = some n) {m : CxxString} {s e : Nat}
    {rest : List (Nat × Nat)} (hm : (m, (s, e) :: rest) ∈ idx) (hs : s ≤ L) (he : L ≤ e) :
    n ≤ m := by
  induction idx with
  | nil => simp at hm
  | cons p t ih =>
    obtain ⟨name, spans⟩ := p
    unfold MapWF mapKeys at hwf
    rw [List.map_cons, List.pairwise_cons] at hwf
    rcases List.mem_cons.mp hm with heq | hmem
    · simp only [Prod.mk.injEq] at heq
      obtain ⟨hname, hspans⟩ := heq
      subst hname
      subst hspans
      simp only [findOwner, ge_iff_le, hs, he, and_self, if_true, Option.some.injEq] at h
      exact le_of_eq h.symm
    · have hlt : name < m := hwf.1 m (List.mem_map.mpr ⟨_, hmem, rfl⟩)
      cases spans with
      | nil =>
        simp only [findOwner] at h
        exact ih hwf.2 h hmem
      | cons lines more =>
        simp only [findOwner] at h
        split_ifs at h with hin
        · simp only [Option.some.injEq] at h
          rw [← h]
          exact le_of_lt hlt
        · exact ih hwf.2 h hmem

theorem findOwner_map_take (L : Nat) (idx : FunctionSpan) :
    findOwner L (idx.map (fun p => (p.1, p.2.take 1))) = findOwner L idx := by
  induction idx with
  | nil => rfl
  | cons p t ih =>
    obtain ⟨name, spans⟩ := p
    cases spans with
    | nil => simpa [findOwner] using ih
    | cons lines more =>
      simp only [List.map_cons, List.take_succ_cons, List.take_zero, findOwner]
      split_ifs
      · rfl
      · exact ih

/-- C15, as stated, fails: with `f` recorded at lines 1 to 10 and `g` at lines 3
to 5, the owner found for line 4 is `f`, whose span is the larger one. -/
theorem outer_function_wins_over_inner :
    findOwner 4 (TraverseDecl State.empty
      [.functionDecl (sampleFunction "f" 1 10),
        .functionDecl (sampleFunction "g" 3 5)]).functionSpan = some "f".toList ∧
      mapFind 7 (TraverseDecl State.empty
        [.varDecl (sampleGlobal 7 "counter"), .functionDecl (sampleFunction "f" 1 10),
          .functionDecl (sampleFunction "g" 3 5),
          .declRefExpr (sampleRef 7 4)]).globalVarReferences = some ["f".toList] := by
  decide

/-- C15, amended: the sizes of the spans play no role. For every span index and
every line `L`, as soon as the earliest-starting interval of some name `m`
contains `L`, an owner is found for `L`; it is a name with a stored interval that
contains `L`, and it is lexicographically no greater than `m`. -/
theorem findOwner_prefers_smaller_name (idx : FunctionSpan) (hwf : MapWF idx)
    (hinner : ∀ p ∈ idx, MapWF p.2) (L : Nat) (m : CxxString)
    (hm : FirstContains idx m L) :
    ∃ n, findOwner L idx = some n ∧ n ≤ m ∧ ∃ s e, Stored idx n s e ∧ s ≤ L ∧ L ≤ e := by
  obtain ⟨s, e, rest, hmem, hs, he⟩ := (firstContains_iff idx hinner m L).mp hm
  cases hfo : findOwner L idx with
  | none =>
    rw [findOwner_eq_none_iff] at hfo
    exact absurd ⟨hs, he⟩ (hfo m s e rest hmem)
  | some n =>
    exact ⟨n, rfl, findOwner_le_of_container hwf hfo hmem hs he, findOwner_stored hfo⟩

/-- C15 amended, at the span index holding `f` at lines 1 to 10 and `g` at lines 3
to 5, for line 4 and the name `f`. -/
theorem findOwner_prefers_smaller_name_witness :
    ∃ n, findOwner 4 [("f".toList, [(1, 10)]), ("g".toList, [(3, 5)])] = some n ∧
      n ≤ "f".toList ∧
      ∃ s e, Stored [("f".toList, [(1, 10)]), ("g".toList, [(3, 5)])] n s e ∧ s ≤ 4 ∧ 4 ≤ e :=
  findOwner_prefers_smaller_name [("f".toList, [(1, 10)]), ("g".toList, [(3, 5)])]
    (by decide) (by decide) 4 "f".toList (by decide)

/-- C17, as stated, fails: with `g` (lines 3 to 5) recorded first and `f` (lines 1
to 10) recorded second, the owner found for line 4 is `f`, the one recorded
later. -/
theorem later_recorded_function_can_win :
    findOwner 4 (TraverseDecl State.empty
      [.functionDecl (sampleFunction "g" 3 5),
        .functionDecl (sampleFunction "f" 1 10)]).functionSpan = some "f".toList ∧
      mapFind 7 (TraverseDecl State.empty
        [.varDecl (sampleGlobal 7 "counter"), .functionDecl (sampleFunction "g" 3 5),
          .functionDecl (sampleFunction "f" 1 10),
          .declRefExpr (sampleRef 7 4)]).globalVarReferences = some ["f".toList] := by
  decide

/-- C17, amended: the order of recording plays no role. Two streams that hold the
same events in different orders, with recorded function declarations such that
two with the same name and start line have the same end line, leave the same span
index and so resolve every line to the same owner; processed from the empty
state, that owner is lexicographically no greater than any name whose
earliest-starting interval contains the line. -/
theorem findOwner_independent_of_recording_order (st : State) (events₁ events₂ : List Event)
    (hperm : events₁.Perm events₂)
    (hagree : ∀ a ∈ recordedSpans events₁, ∀ b ∈ recordedSpans events₁, SpansAgree a b)
    (L : Nat) :
    findOwner L (TraverseDecl st events₁).functionSpan =
        findOwner L (TraverseDecl st events₂).functionSpan ∧
      ∀ n, findOwner L (TraverseDecl State.empty events₁).functionSpan = some n →
        ∀ m, FirstContains (TraverseDecl State.empty events₁).functionSpan m L → n ≤ m := by
  constructor
  · rw [TraverseDecl_functionSpan, TraverseDecl_functionSpan]
    have hp : (recordedSpans events₁).Perm (recordedSpans events₂) := hperm.filterMap _
    rw [List.Perm.foldl_eq' hp (fun a ha b hb z => recordSpan_comm z a b (hagree a ha b hb))]
  · intro n hn m hm
    have hwf := foldl_recordSpan_wf (recordedSpans events₁) [] (by simp [MapWF, mapKeys])
      (by simp)
    rw [TraverseDecl_functionSpan] at hn hm
    obtain ⟨s, e, rest, hmem, hs, he⟩ := (firstContains_iff _ hwf.2 m L).mp hm
    exact findOwner_le_of_container hwf.1 hn hmem hs he

/-- C17 amended, on the two orders of recording `g` (lines 3 to 5) and `f` (lines 1
to 10), for line 4. -/
theorem findOwner_independent_of_recording_order_witness :
    findOwner 4 (TraverseDecl State.empty
        [.functionDecl (sampleFunction "g" 3 5),
          .functionDecl (sampleFunction "f" 1 10)]).functionSpan =
      findOwner 4 (TraverseDecl State.empty
        [.functionDecl (sampleFunction "f" 1 10),
          .functionDecl (sampleFunction "g" 3 5)]).functionSpan :=
  (findOwner_independent_of_recording_order State.empty
    [.functionDecl (sampleFunction "g" 3 5), .functionDecl (sampleFunction "f" 1 10)]
    [.functionDecl (sampleFunction "f" 1 10), .functionDecl (sampleFunction "g" 3 5)]
    (List.Perm.swap _ _ _) (by decide) 4).1

/-- C18: for every span index and every line `L`, the owner attributed to a
reference at `L` to a tracked variable is the lexicographically smallest name
whose interval with the smallest start line contains `L`; no owner is attributed
exactly when no name has such an interval; and the result is the same on the span
index cut down to the first interval of each name, so the other intervals are
never consulted. -/
theorem findOwner_eq_least_first_container (st : State) (hwf : MapWF st.functionSpan)
    (hinner : ∀ p ∈ st.functionSpan, MapWF p.2) (L : Nat) :
    (∀ n, findOwner L st.functionSpan = some n ↔
        FirstContains st.functionSpan n L ∧
          ∀ m, FirstContains st.functionSpan m L → n ≤ m) ∧
      (findOwner L st.functionSpan = none ↔ ∀ m, ¬ FirstContains st.functionSpan m L) ∧
      findOwner L (st.functionSpan.map (fun p => (p.1, p.2.take 1))) =
        findOwner L st.functionSpan ∧
      (∀ V u, mapContains V st.globalVarReferences = true →
        VisitDeclRefExpr st ⟨some V, L, u⟩ =
          ⟨st.functionSpan,
            match findOwner L st.functionSpan with
            | some n =>
              mapUpdate V (fun o => setInsert n (o.getD [])) st.globalVarReferences
            | none => st.globalVarReferences⟩) := by
  have hnone : findOwner L st.functionSpan = none ↔
      ∀ m, ¬ FirstContains st.functionSpan m L := by
    rw [findOwner_eq_none_iff]
    constructor
    · intro h m hm
      obtain ⟨s, e, rest, hmem, hs, he⟩ := (firstContains_iff _ hinner m L).mp hm
      exact h m s e rest hmem ⟨hs, he⟩
    · intro h m s e rest hmem hse
      exact h m ((firstContains_iff _ hinner m L).mpr ⟨s, e, rest, hmem, hse.1, hse.2⟩)
  refine ⟨?_, hnone, findOwner_map_take L st.functionSpan, ?_⟩
  · intro n
    constructor
    · intro h
      refine ⟨(firstContains_iff _ hinner n L).mpr (findOwner_sound h), ?_⟩
      intro m hm
      obtain ⟨s, e, rest, hmem, hs, he⟩ := (firstContains_iff _ hinner m L).mp hm
      exact findOwner_le_of_container hwf h hmem hs he
    · rintro ⟨hn, hmin⟩
      cases hfo : findOwner L st.functionSpan with
      | none => exact absurd hn (hnone.mp hfo n)
      | some n' =>
        have hn' : FirstContains st.functionSpan n' L :=
          (firstContains_iff _ hinner n' L).mpr (findOwner_sound hfo)
        obtain ⟨s, e, rest, hmem, hs, he⟩ := (firstContains_iff _ hinner n L).mp hn
        have h1 : n' ≤ n := findOwner_le_of_container hwf hfo hmem hs he
        have h2 : n ≤ n' := hmin n' hn'
        rw [le_antisymm h1 h2]
  · intro V u hV
    unfold VisitDeclRefExpr
    simp only [DeclRefExpr.var, hV, if_true]
    cases findOwner L st.functionSpan <;> rfl

/-- C18, at the state where `helper` is recorded at lines 1 to 3 and at lines 10 to
13: no owner is attributed to line 11, which only the second interval contains. -/
theorem findOwner_eq_least_first_container_witness :
    findOwner 11 (TraverseDecl State.empty (helperEvents.take 3)).functionSpan = none ↔
      ∀ m, ¬ FirstContains (TraverseDecl State.empty (helperEvents.take 3)).functionSpan m 11 :=
  (findOwner_eq_least_first_container (TraverseDecl State.empty (helperEvents.take 3))
    (by decide) (by decide) 11).2.1

end GlobalVariable
